import Mathlib

/-!
Verification of the `coding-loop` library (tag parser, path resolver, file
operation applier, stream multiplexer and control loop) against its
natural-language specification.

Documents and filesystem paths are represented as `List Char`.  Pure string
manipulation from the source (`tag-parser.ts`, `file-operations.ts`,
`coding-loop.ts`) is embedded as executable Lean functions; the regex scans of
the source are embedded as explicit left-to-right scanning functions with the
same matching semantics (leftmost match, continue after the match).  The
filesystem is modelled as a flat association list from absolute paths to file
contents (directories are implicit; `mkdirSync` is a no-op in the model).
-/

set_option maxHeartbeats 1000000
set_option maxRecDepth 100000

deriving instance DecidableEq for Except

namespace Dyad

/-! ## Path resolution (`file-operations.ts`, `safeJoin`)

Node's POSIX `path.resolve` is modelled segment-wise: split on the separator,
process `.` and `..` segments left to right, and rejoin with a leading
separator.  The model covers absolute base paths only; resolving a relative
base consults the process working directory, which is outside the model. -/

/-- Fold step splitting a character list at the path separator:
the accumulator holds the segment being built and the completed segments. -/
def splitStep (c : Char) (p : List Char × List (List Char)) :
    List Char × List (List Char) :=
  if c = '/' then ([], if p.1 = [] then p.2 else p.1 :: p.2)
  else (c :: p.1, p.2)

/-- Split a path into its non-empty segments. -/
def splitSegs (l : List Char) : List (List Char) :=
  let p := l.foldr splitStep ([], [])
  if p.1 = [] then p.2 else p.1 :: p.2

/-- Normalisation step of `path.resolve`: `.` is dropped, `..` pops the last
segment (at the root it is dropped), other segments are appended. -/
def normStep (acc : List (List Char)) (s : List Char) : List (List Char) :=
  if s = ['.'] then acc
  else if s = ['.', '.'] then acc.dropLast
  else acc ++ [s]

/-- Process `.` and `..` segments of an absolute path left to right. -/
def normSegs (segs : List (List Char)) : List (List Char) :=
  segs.foldl normStep []

/-- Join segments with the path separator (no leading separator). -/
def joinSegsRel : List (List Char) → List Char
  | [] => []
  | [s] => s
  | s :: s2 :: rest => s ++ '/' :: joinSegsRel (s2 :: rest)

/-- Join segments into an absolute path. -/
def joinAbs (segs : List (List Char)) : List Char :=
  '/' :: joinSegsRel segs

/-- Node `path.resolve(p)` for an absolute `p`. -/
def pathResolve1 (p : List Char) : List Char :=
  joinAbs (normSegs (splitSegs p))

/-- Node `path.resolve(base, rel)` for an absolute `base`: an absolute `rel`
wins, otherwise `rel`'s segments are resolved against `base`'s. -/
def pathResolve2 (base rel : List Char) : List Char :=
  match rel with
  | '/' :: _ => pathResolve1 rel
  | _ => joinAbs (normSegs (splitSegs base ++ splitSegs rel))

/-- `safeJoin` from `file-operations.ts`: resolve the base, resolve the
relative path against it, and require the result to start with the
normalised base (a plain string-prefix test), else throw. -/
def safeJoin (basePath relativePath : List Char) : Except (List Char) (List Char) :=
  let normalizedBase := pathResolve1 basePath
  let joined := pathResolve2 normalizedBase relativePath
  if normalizedBase.isPrefixOf joined then .ok joined
  else .error ((("Path traversal attempt detected: ").data) ++ relativePath ++
    ((" escapes ").data) ++ basePath)

/-- Spec-side notion of path containment ("an absolute path that lies inside
the root", "a descendant of the root"): after normalisation, the root's
segment list is a proper prefix of the path's segment list. -/
def isDescendant (root p : List Char) : Bool :=
  let rs := normSegs (splitSegs root)
  let ps := normSegs (splitSegs p)
  rs.isPrefixOf ps && decide (rs ≠ ps)

/-! ## Tag literals -/

/-- Opening of a `dyad-write` marker (the marker continues with `[^>]*>`). -/
def writeOpenLit : List Char := ("<dyad-write").data

/-- Closing marker of a `dyad-write` tag. -/
def writeCloseLit : List Char := ("</dyad-write>").data

/-- Opening marker of a `dyad-chat-summary` tag. -/
def summaryOpenLit : List Char := ("<dyad-chat-summary>").data

/-- Closing marker of a `dyad-chat-summary` tag. -/
def summaryCloseLit : List Char := ("</dyad-chat-summary>").data

/-- Literal head of a `dyad-add-dependency` tag up to the opening quote of its
`packages` attribute. -/
def depOpenLit : List Char := ("<dyad-add-dependency packages=\"").data

/-- Closing marker of a `dyad-add-dependency` tag. -/
def depCloseLit : List Char := ("</dyad-add-dependency>").data

/-- Synthetic marker opening a thinking block in the multiplexed document. -/
def thinkOpenLit : List Char := ("<think>").data

/-- Synthetic marker closing a thinking block in the multiplexed document. -/
def thinkCloseLit : List Char := ("</think>").data

/-! ## Generic text utilities (`tag-parser.ts` helpers) -/

/-- JavaScript `String.prototype.trim` on character lists. -/
def trimChars (l : List Char) : List Char :=
  ((l.dropWhile Char.isWhitespace).reverse.dropWhile Char.isWhitespace).reverse

/-- Fuel-driven replacement of every non-overlapping occurrence of `pat` by
`rep`, scanning left to right (JavaScript `replace` with a global pattern).
The fuel is the length of the scanned text. -/
def replaceAllFuel (pat rep : List Char) : Nat → List Char → List Char
  | 0, l => l
  | _ + 1, [] => []
  | fuel + 1, c :: rest =>
    if pat.isPrefixOf (c :: rest) then
      rep ++ replaceAllFuel pat rep fuel (rest.drop (pat.length - 1))
    else c :: replaceAllFuel pat rep fuel rest

/-- Replace every occurrence of `pat` by `rep`. -/
def replaceAll (pat rep : List Char) (l : List Char) : List Char :=
  replaceAllFuel pat rep l.length l

/-- `escapeDyadTags` from `tag-parser.ts`: rewrite dyad tag openers to a
full-width look-alike so reasoning text cannot be parsed as operations. -/
def escapeDyadTags (text : List Char) : List Char :=
  replaceAll (("</dyad").data) (("＜/dyad").data)
    (replaceAll (("<dyad").data) (("＜dyad").data) text)

/-- Generic splitting of a character list at every character satisfying `p`,
keeping empty pieces (JavaScript `String.prototype.split` semantics). -/
def splitKeepP (p : Char → Bool) (l : List Char) : List (List Char) :=
  let q := l.foldr (fun c acc => if p c then ([], acc.1 :: acc.2) else (c :: acc.1, acc.2))
    (([] : List Char), ([] : List (List Char)))
  q.1 :: q.2

/-! ## Truncation detection (`hasUnclosedWriteTag`)

The source scans for `<dyad-write[^>]*>` with a global regex, remembers the
index of the last match, and reports truncation when no `</dyad-write>`
occurs in the text from that index on.  The scan is embedded as a fuel-driven
recursion that, instead of the index, returns the suffix of the text starting
at the last match (the same suffix the source takes with `substring`). -/

/-- Does `pat` occur inside `s`, i.e. start at some suffix of `s`?  Executable
substring test (JavaScript `RegExp.prototype.test` with a literal pattern). -/
def occursIn (pat : List Char) : List Char → Bool
  | [] => pat.isPrefixOf []
  | c :: cs => pat.isPrefixOf (c :: cs) || occursIn pat cs

/-- Match `<dyad-write[^>]*>` at the head of `s`; on success return the
remainder of `s` after the closing `>` of the marker. -/
def writeOpenMatchRest (s : List Char) : Option (List Char) :=
  if writeOpenLit.isPrefixOf s then
    match (s.drop 11).dropWhile (fun c => c ≠ '>') with
    | [] => none
    | _ :: rest => some rest
  else none

/-- Fuel-driven scan for the last `<dyad-write[^>]*>` match: returns the
suffix of the text starting at that match, scanning leftmost-first and
continuing each time after the matched marker. -/
def lastWriteOpenSuffix : Nat → List Char → Option (List Char)
  | 0, _ => none
  | _ + 1, [] => none
  | fuel + 1, c :: cs =>
    match writeOpenMatchRest (c :: cs) with
    | some rest =>
      match lastWriteOpenSuffix fuel rest with
      | some suf => some suf
      | none => some (c :: cs)
    | none => lastWriteOpenSuffix fuel cs

/-- `hasUnclosedWriteTag` from `tag-parser.ts`. -/
def hasUnclosedWriteTag (text : List Char) : Bool :=
  match lastWriteOpenSuffix text.length text with
  | none => false
  | some suf => ! occursIn writeCloseLit suf

/-! ## Dependency extraction (`getAddDependencyPackages`)

The source matches `<dyad-add-dependency packages="([^"]+)">[^<]*</dyad-add-dependency>`
globally and, for each match, pushes `match[1].split(" ").filter(Boolean)`.
A match requires: the literal head, a non-empty run of non-quote characters,
the two characters `">`, a run of non-`<` characters, and the closing
literal. -/

/-- Match one `dyad-add-dependency` tag at the head of `s`; on success return
the captured `packages` attribute value and the remainder after the match. -/
def depMatchAt (s : List Char) : Option (List Char × List Char) :=
  if depOpenLit.isPrefixOf s then
    let t1 := s.drop depOpenLit.length
    let v := t1.takeWhile (fun c => c ≠ '"')
    if v = [] then none
    else
      match t1.dropWhile (fun c => c ≠ '"') with
      | '"' :: '>' :: t3 =>
        let t4 := t3.dropWhile (fun c => c ≠ '<')
        if depCloseLit.isPrefixOf t4 then some (v, t4.drop depCloseLit.length)
        else none
      | _ => none
  else none

/-- Tokens contributed by one `packages` attribute value:
`value.split(" ").filter(Boolean)`. -/
def depTokens (v : List Char) : List (List Char) :=
  (splitKeepP (fun c => c = ' ') v).filter (fun t => t ≠ [])

/-- Fuel-driven scan pushing each match's tokens, as the source's `while`
loop over `regex.exec` does. -/
def getAddDependencyPackagesFuel : Nat → List Char → List (List Char)
  | 0, _ => []
  | _ + 1, [] => []
  | fuel + 1, c :: cs =>
    match depMatchAt (c :: cs) with
    | some (v, rest) => depTokens v ++ getAddDependencyPackagesFuel fuel rest
    | none => getAddDependencyPackagesFuel fuel cs

/-- `getAddDependencyPackages` from `tag-parser.ts`. -/
def getAddDependencyPackages (fullResponse : List Char) : List (List Char) :=
  getAddDependencyPackagesFuel fullResponse.length fullResponse

/-- Fuel-driven scan collecting the raw `packages` attribute values of all
matched `dyad-add-dependency` tags, in encounter order. -/
def depValuesFuel : Nat → List Char → List (List Char)
  | 0, _ => []
  | _ + 1, [] => []
  | fuel + 1, c :: cs =>
    match depMatchAt (c :: cs) with
    | some (v, rest) => v :: depValuesFuel fuel rest
    | none => depValuesFuel fuel cs

/-- The `packages` attribute values of all matched tags. -/
def depValues (fullResponse : List Char) : List (List Char) :=
  depValuesFuel fullResponse.length fullResponse

/-- Spec-side reading of the dependency aggregation sentence, with "split on
whitespace" taken literally: tokens separated by any whitespace character. -/
def specPackagesWhitespace (fullResponse : List Char) : List (List Char) :=
  (depValues fullResponse).flatMap
    (fun v => (splitKeepP Char.isWhitespace v).filter (fun t => t ≠ []))

/-! ## Chat summary extraction (`getChatSummary`)

The source runs `/<dyad-chat-summary>([\s\S]*?)<\/dyad-chat-summary>/g` once:
the first position where the opening literal is followed (lazily) by a body
and the closing literal yields the match; the trimmed body is returned,
`null` otherwise. -/

/-- Characters of `t` before its first occurrence of `summaryCloseLit`;
`none` when the closing literal does not occur in `t`. -/
def summaryLazyBody : List Char → Option (List Char)
  | [] => none
  | c :: cs =>
    if summaryCloseLit.isPrefixOf (c :: cs) then some []
    else (summaryLazyBody cs).map (fun b => c :: b)

/-- Match one closed `dyad-chat-summary` tag at the head of `s`, returning
its raw body. -/
def summaryMatchAt (s : List Char) : Option (List Char) :=
  if summaryOpenLit.isPrefixOf s then summaryLazyBody (s.drop summaryOpenLit.length)
  else none

/-- Scan for the first closed `dyad-chat-summary` tag. -/
def getChatSummaryGo : List Char → Option (List Char)
  | [] => none
  | c :: cs =>
    match summaryMatchAt (c :: cs) with
    | some body => some (trimChars body)
    | none => getChatSummaryGo cs

/-- `getChatSummary` from `tag-parser.ts`. -/
def getChatSummary (fullResponse : List Char) : Option (List Char) :=
  getChatSummaryGo fullResponse

/-! ## Spec-side characterisations of the scans -/

/-- Largest `i < n` satisfying `p`, found by a left fold keeping the last
hit.  Used to phrase "the character offset of the last marker". -/
def lastBelow (p : Nat → Bool) (n : Nat) : Option Nat :=
  (List.range n).foldl (fun acc i => if p i then some i else acc) none

/-- Does a `<dyad-write[^>]*>` marker occur at offset `i` of `s`? -/
def writeOpenAt (s : List Char) (i : Nat) : Bool :=
  (writeOpenMatchRest (s.drop i)).isSome

/-- Does the literal `pat` occur at offset `i` of `s`? -/
def litAt (pat s : List Char) (i : Nat) : Bool :=
  pat.isPrefixOf (s.drop i)

/-- Spec-side truncation test (§4.2 of the spec): take the offset of the last
Write opening marker, wherever a marker can match; the text is truncated iff
no Write closing marker occurs at or after that offset.  No marker means not
truncated. -/
def specTruncated (s : List Char) : Bool :=
  match lastBelow (writeOpenAt s) (s.length + 1) with
  | none => false
  | some i => ! occursIn writeCloseLit (s.drop i)

/-- First `i < n` satisfying `p`. -/
def firstBelow (p : Nat → Bool) (n : Nat) : Option Nat :=
  (List.range n).find? p

/-- Spec-side chat summary (§4.1 of the spec): the body of the first closed
Summary tag — the text between the first opening marker and the first
closing marker after it — trimmed; `none` when there is no such closed
occurrence. -/
def specChatSummary (s : List Char) : Option (List Char) :=
  match firstBelow (litAt summaryOpenLit s) (s.length + 1) with
  | none => none
  | some i =>
    let after := s.drop (i + summaryOpenLit.length)
    match firstBelow (litAt summaryCloseLit after) (after.length + 1) with
    | none => none
    | some j => some (trimChars (after.take j))

/-- Spec-side unclosed-literal test, used for the thinking-block markers: the
last occurrence of `openL` has no occurrence of `closeL` at or after it. -/
def specUnclosedLit (openL closeL s : List Char) : Bool :=
  match lastBelow (litAt openL s) (s.length + 1) with
  | none => false
  | some i => ! occursIn closeL (s.drop i)

/-! ## Operation records (`types.ts`) -/

/-- A file write operation parsed from the response (`WriteTag`). -/
structure WriteTag where
  path : List Char
  content : List Char
  description : Option (List Char) := none
deriving DecidableEq

/-- A file rename operation (`RenameTag`); `from` is a Lean keyword, so the
fields are `fromPath` and `toPath`. -/
structure RenameTag where
  fromPath : List Char
  toPath : List Char
deriving DecidableEq

/-- A search-replace operation (`SearchReplaceTag`), same shape as a write. -/
structure SearchReplaceTag where
  path : List Char
  content : List Char
  description : Option (List Char) := none
deriving DecidableEq

/-- A SQL query execution tag (`SqlQueryTag`). -/
structure SqlQueryTag where
  content : List Char
  description : Option (List Char) := none
deriving DecidableEq

/-- The closed set of command tag values (`CommandType`). -/
inductive CommandType where
  | rebuild
  | restart
  | refresh
deriving DecidableEq

/-- All operations extracted from one response (`ParsedResponse`). -/
structure ParsedResponse where
  writeTags : List WriteTag := []
  renameTags : List RenameTag := []
  deletePaths : List (List Char) := []
  addDependencies : List (List Char) := []
  searchReplaceTags : List SearchReplaceTag := []
  sqlQueries : List SqlQueryTag := []
  commands : List CommandType := []
  chatSummary : Option (List Char) := none
deriving DecidableEq

/-! ## Filesystem model and the applier (`file-operations.ts`, `applyFileChanges`)

The filesystem is a flat association list from absolute paths to file
contents; `existsSync` is a lookup, deletion and renaming manipulate entries,
and `mkdirSync` is a no-op.  The caller-supplied `onLog` / `onWarn` /
`onError` callbacks are modelled by collecting their messages in order, and
the caught per-operation failures by the list of aggregated error messages.
A trace records every operation attempted, in order. -/

/-- The modelled filesystem. -/
abbrev FS := List (List Char × List Char)

/-- Lookup of an absolute path (`fs.existsSync` / reading for rename). -/
def fsLookup (fs : FS) (p : List Char) : Option (List Char) :=
  (fs.find? (fun e => decide (e.1 = p))).map (fun e => e.2)

/-- Remove an absolute path (`fs.unlinkSync` / `fs.rmdirSync`). -/
def fsErase (fs : FS) (p : List Char) : FS :=
  fs.filter (fun e => decide (e.1 ≠ p))

/-- Create or overwrite a file (`fs.writeFileSync`). -/
def fsInsert (fs : FS) (p c : List Char) : FS :=
  (p, c) :: fsErase fs p

/-- One attempted operation, for the order-of-application trace. -/
inductive OpEvent where
  | del (path : List Char)
  | ren (fromPath toPath : List Char)
  | wr (path : List Char)
deriving DecidableEq

/-- One entry of the caller's file-uploads map; the upload's binary content
is carried directly instead of a path to re-read. -/
structure UploadInfo where
  content : List Char
  originalName : List Char
deriving DecidableEq

/-- The `fileUploadsMap` parameter. -/
abbrev UploadsMap := List (List Char × UploadInfo)

/-- Lookup a trimmed write body in the uploads map. -/
def uploadsLookup (um : UploadsMap) (key : List Char) : Option UploadInfo :=
  (um.find? (fun e => decide (e.1 = key))).map (fun e => e.2)

/-- Mutable state threaded through the three loops of `applyFileChanges`. -/
structure ApplyState where
  fs : FS
  writtenFiles : List (List Char) := []
  renamedFiles : List (List Char) := []
  deletedFiles : List (List Char) := []
  errs : List (List Char) := []
  logs : List (List Char) := []
  warns : List (List Char) := []
  trace : List OpEvent := []
deriving DecidableEq

/-- Error message for a failed delete. -/
def delFailMsg (p : List Char) : List Char := ("Failed to delete: ").data ++ p

/-- Log message for a successful delete. -/
def delLogMsg (p : List Char) : List Char := ("Successfully deleted: ").data ++ p

/-- Warning for a delete whose target does not exist. -/
def delWarnMsg (p : List Char) : List Char :=
  ("File to delete does not exist: ").data ++ p

/-- Error message for a failed rename. -/
def renFailMsg (f t : List Char) : List Char :=
  ("Failed to rename: ").data ++ f ++ (" -> ").data ++ t

/-- Log message for a successful rename. -/
def renLogMsg (f t : List Char) : List Char :=
  ("Successfully renamed: ").data ++ f ++ (" -> ").data ++ t

/-- Warning for a rename whose source does not exist. -/
def renWarnMsg (f : List Char) : List Char :=
  ("Source file for rename does not exist: ").data ++ f

/-- Error message for a failed write. -/
def wrFailMsg (p : List Char) : List Char := ("Failed to write: ").data ++ p

/-- Log message for a successful write. -/
def wrLogMsg (p : List Char) : List Char := ("Successfully wrote: ").data ++ p

/-- Log message for substituting an upload placeholder. -/
def upLogMsg (key name : List Char) : List Char :=
  ("Replaced file ID ").data ++ key ++ (" with content from ").data ++ name

/-- One iteration of the deletions loop: resolve the path (a traversal error
is caught and aggregated), warn when the target is absent, otherwise remove
it and record the declared path as deleted. -/
def deleteStep (appPath : List Char) (st : ApplyState) (filePath : List Char) :
    ApplyState :=
  match safeJoin appPath filePath with
  | .error _ => { st with trace := st.trace ++ [OpEvent.del filePath]
                          errs := st.errs ++ [delFailMsg filePath] }
  | .ok fullFilePath =>
    match fsLookup st.fs fullFilePath with
    | some _ =>
      { st with trace := st.trace ++ [OpEvent.del filePath]
                fs := fsErase st.fs fullFilePath
                logs := st.logs ++ [delLogMsg filePath]
                deletedFiles := st.deletedFiles ++ [filePath] }
    | none => { st with trace := st.trace ++ [OpEvent.del filePath]
                        warns := st.warns ++ [delWarnMsg filePath] }

/-- One iteration of the renames loop: resolve both endpoints (a traversal
error on either is caught and aggregated), warn when the source is absent,
otherwise move the entry and record the target path as renamed. -/
def renameStep (appPath : List Char) (st : ApplyState) (tag : RenameTag) :
    ApplyState :=
  match safeJoin appPath tag.fromPath, safeJoin appPath tag.toPath with
  | .ok fromFull, .ok toFull =>
    match fsLookup st.fs fromFull with
    | some content =>
      { st with trace := st.trace ++ [OpEvent.ren tag.fromPath tag.toPath]
                fs := fsInsert (fsErase st.fs fromFull) toFull content
                logs := st.logs ++ [renLogMsg tag.fromPath tag.toPath]
                renamedFiles := st.renamedFiles ++ [tag.toPath] }
    | none => { st with trace := st.trace ++ [OpEvent.ren tag.fromPath tag.toPath]
                        warns := st.warns ++ [renWarnMsg tag.fromPath] }
  | _, _ => { st with trace := st.trace ++ [OpEvent.ren tag.fromPath tag.toPath]
                      errs := st.errs ++ [renFailMsg tag.fromPath tag.toPath] }

/-- One iteration of the writes loop: resolve the path (a traversal error is
caught and aggregated), substitute an upload placeholder when the trimmed
body matches one, write the content and record the declared path. -/
def writeStep (appPath : List Char) (fileUploadsMap : UploadsMap)
    (st : ApplyState) (tag : WriteTag) : ApplyState :=
  match safeJoin appPath tag.path with
  | .error _ => { st with trace := st.trace ++ [OpEvent.wr tag.path]
                          errs := st.errs ++ [wrFailMsg tag.path] }
  | .ok fullFilePath =>
    match uploadsLookup fileUploadsMap (trimChars tag.content) with
    | some info =>
      { st with trace := st.trace ++ [OpEvent.wr tag.path]
                fs := fsInsert st.fs fullFilePath info.content
                logs := st.logs ++ [upLogMsg (trimChars tag.content) info.originalName,
                  wrLogMsg tag.path]
                writtenFiles := st.writtenFiles ++ [tag.path] }
    | none =>
      { st with trace := st.trace ++ [OpEvent.wr tag.path]
                fs := fsInsert st.fs fullFilePath tag.content
                logs := st.logs ++ [wrLogMsg tag.path]
                writtenFiles := st.writtenFiles ++ [tag.path] }

/-- The manifest returned by the applier (`FileOperationResult`). -/
structure FileOperationResult where
  writtenFiles : List (List Char)
  renamedFiles : List (List Char)
  deletedFiles : List (List Char)
  addedPackages : List (List Char)
  hasChanges : Bool
  error : Option (List Char)
deriving DecidableEq

/-- Join aggregated error messages with `"; "`. -/
def joinSemi : List (List Char) → List Char
  | [] => []
  | [m] => m
  | m :: m2 :: rest => m ++ ("; ").data ++ joinSemi (m2 :: rest)

/-- The applier's full observable outcome: the returned manifest plus the
final filesystem, the collected callback messages and the attempt trace. -/
structure ApplyOutcome where
  result : FileOperationResult
  fs : FS
  logs : List (List Char)
  warns : List (List Char)
  errs : List (List Char)
  trace : List OpEvent
deriving DecidableEq

/-- `applyFileChanges` from `file-operations.ts`: deletions, then renames,
then writes, each loop catching per-operation failures; the manifest reports
the three path lists, the dependency list as extracted, a "had any effect"
flag, and the joined error string when any operation failed.  (The source's
outer `try` can only be reached by a failure outside the per-operation
handlers and is unreachable in the model.) -/
def applyFileChanges (appPath : List Char) (parsedResponse : ParsedResponse)
    (fs0 : FS) (fileUploadsMap : UploadsMap) : ApplyOutcome :=
  let st1 := parsedResponse.deletePaths.foldl (deleteStep appPath) { fs := fs0 }
  let st2 := parsedResponse.renameTags.foldl (renameStep appPath) st1
  let st3 := parsedResponse.writeTags.foldl (writeStep appPath fileUploadsMap) st2
  { result :=
      { writtenFiles := st3.writtenFiles
        renamedFiles := st3.renamedFiles
        deletedFiles := st3.deletedFiles
        addedPackages := parsedResponse.addDependencies
        hasChanges := decide (st3.writtenFiles ≠ [] ∨ st3.renamedFiles ≠ [] ∨
          st3.deletedFiles ≠ [])
        error := if st3.errs = [] then none else some (joinSemi st3.errs) }
    fs := st3.fs
    logs := st3.logs
    warns := st3.warns
    errs := st3.errs
    trace := st3.trace }

/-! ## Stream multiplexing and the control loop (`coding-loop.ts`)

The external producer is modelled as a pure, finite fragment list (so it
cannot reject; the `catch` in `process` — the only place `wasAborted` is set
— is therefore unreachable in the model).  The abort signal is a Boolean
function of a global clock that ticks once per fragment-loop iteration; the
cooperative check `if (abortSignal?.aborted) break` reads the clock before
each fragment.  The chunk observer is a pure function of the accumulated
document and the incremental chunk.  `parsedResponse` of the returned record
is the derived value `parseResponse fullResponse` and is omitted from the
model (no claim depends on it). -/

/-- One fragment of the producer's stream (`part` of the Vercel AI SDK
`fullStream`); an absent `text` is modelled as the empty list, which the
source treats identically (both are falsy). -/
structure StreamPart where
  type : String
  text : List Char := []
deriving DecidableEq

/-- The fragment kinds that keep a thinking block open. -/
def reasoningKinds : List String :=
  ["reasoning-delta", "reasoning-end", "reasoning-start"]

/-- The chunk transition of `streamResponse`: given the thinking-block flag
and the incoming fragment, the emitted chunk and the new flag.  On leaving a
thinking block the close marker is prepended; a `text-delta` appends its text
verbatim; a `reasoning-delta` opens a block if needed and appends its text
escaped; anything else emits nothing further.  (In the source the opening
branch assigns `chunk = "<think>"`, discarding the previous chunk value; that
value is provably empty there, since the close branch does not fire for a
reasoning kind.) -/
def srChunk (inThinkingBlock : Bool) (part : StreamPart) :
    List Char × Bool :=
  let p1 : List Char × Bool :=
    if inThinkingBlock && ! reasoningKinds.contains part.type then
      (thinkCloseLit, false)
    else ([], inThinkingBlock)
  if part.type = "text-delta" ∧ part.text ≠ [] then
    (p1.1 ++ part.text, p1.2)
  else if part.type = "reasoning-delta" ∧ part.text ≠ [] then
    if p1.2 then (p1.1 ++ escapeDyadTags part.text, p1.2)
    else (thinkOpenLit ++ escapeDyadTags part.text, true)
  else p1

/-- A chunk observer (`onChunk`): accumulated document and incremental chunk
in, document to continue with out. -/
abbrev ChunkObserver := List Char → List Char → List Char

/-- State of one `streamResponse` call plus the global clock. -/
structure SRState where
  fullResponse : List Char := []
  inThinkingBlock : Bool := false
  clock : Nat := 0
deriving DecidableEq

/-- The fragment loop of `streamResponse`: check the abort signal before each
fragment (breaking out returns the accumulated document normally), skip empty
chunks, append the chunk, and let the observer transform the accumulated
document. -/
def streamResponseGo (ab : Nat → Bool) (onChunk : Option ChunkObserver) :
    List StreamPart → SRState → SRState
  | [], st => st
  | part :: parts, st =>
    if ab st.clock then st
    else
      let q := srChunk st.inThinkingBlock part
      if q.1 = [] then
        streamResponseGo ab onChunk parts
          { st with inThinkingBlock := q.2, clock := st.clock + 1 }
      else
        let full1 := st.fullResponse ++ q.1
        let full2 := match onChunk with
          | none => full1
          | some f => f full1 q.1
        streamResponseGo ab onChunk parts
          { fullResponse := full2, inThinkingBlock := q.2, clock := st.clock + 1 }

/-- A conversation message. -/
structure Message where
  role : String
  content : List Char
deriving DecidableEq

/-- The continuation round's inner stream: `streamResponse` run with the
wrapper observer installed by `process`, which assigns the outer accumulator
to the inner one (`fullResponse = newFull`) and returns the outer observer's
transform of it (or the value itself when no outer observer is set).  The
pair threads the inner state and the outer accumulator. -/
def contStreamGo (ab : Nat → Bool) (onChunk : Option ChunkObserver) :
    List StreamPart → SRState → List Char → SRState × List Char
  | [], st, outer => (st, outer)
  | part :: parts, st, outer =>
    if ab st.clock then (st, outer)
    else
      let q := srChunk st.inThinkingBlock part
      if q.1 = [] then
        contStreamGo ab onChunk parts
          { st with inThinkingBlock := q.2, clock := st.clock + 1 } outer
      else
        let newFull := st.fullResponse ++ q.1
        let inner := match onChunk with
          | none => newFull
          | some f => f newFull []
        contStreamGo ab onChunk parts
          { fullResponse := inner, inThinkingBlock := q.2, clock := st.clock + 1 }
          newFull

/-- The continuation loop of `process`: while the document has an unclosed
write tag, the round budget is not exhausted and the signal is not aborted,
re-invoke the producer with the document appended as a synthetic assistant
message, run the inner stream with the wrapper observer, and then execute
`fullResponse += continuation` on the (wrapper-mutated) outer accumulator. -/
def continuationLoop (streamText : List Message → List StreamPart)
    (ab : Nat → Bool) (onChunk : Option ChunkObserver)
    (messages : List Message) :
    Nat → List Char → Nat → List Char × Nat
  | 0, fullResponse, clock => (fullResponse, clock)
  | fuel + 1, fullResponse, clock =>
    if hasUnclosedWriteTag fullResponse && ! ab clock then
      let continuationMessages := messages ++ [⟨"assistant", fullResponse⟩]
      let q := contStreamGo ab onChunk (streamText continuationMessages)
        { clock := clock } fullResponse
      continuationLoop streamText ab onChunk messages fuel
        (q.2 ++ q.1.fullResponse) q.1.clock
    else (fullResponse, clock)

/-- The record returned by `process` (without the derived `parsedResponse`). -/
structure ProcessResult where
  fullResponse : List Char
  wasTruncated : Bool
  autoFixAttempts : Nat
  wasAborted : Bool
deriving DecidableEq

/-- `CodingLoop.process`: stream once, run the continuation loop, run the
auto-fix loop (`runAutoFixLoop` is a stub returning the document unchanged
with zero attempts), and assemble the result.  `wasAborted` is set only in
the `catch` handler, which a pure producer never reaches, so it is `false`
here. -/
def process (streamText : List Message → List StreamPart) (ab : Nat → Bool)
    (onChunk : Option ChunkObserver) (maxContinuationAttempts : Nat)
    (messages : List Message) : ProcessResult :=
  let st1 := streamResponseGo ab onChunk (streamText messages) {}
  let q := continuationLoop streamText ab onChunk messages
    maxContinuationAttempts st1.fullResponse st1.clock
  { fullResponse := q.1
    wasTruncated := hasUnclosedWriteTag q.1
    autoFixAttempts := 0
    wasAborted := false }

/-! ## Lemmas: the applier attempts operations in a fixed order -/

theorem deleteStep_trace (appPath : List Char) (st : ApplyState) (p : List Char) :
    (deleteStep appPath st p).trace = st.trace ++ [OpEvent.del p] := by
  unfold deleteStep
  split
  · rfl
  · split <;> rfl

theorem renameStep_trace (appPath : List Char) (st : ApplyState) (t : RenameTag) :
    (renameStep appPath st t).trace = st.trace ++ [OpEvent.ren t.fromPath t.toPath] := by
  unfold renameStep
  split
  · split <;> rfl
  · rfl

theorem writeStep_trace (appPath : List Char) (um : UploadsMap) (st : ApplyState)
    (tag : WriteTag) :
    (writeStep appPath um st tag).trace = st.trace ++ [OpEvent.wr tag.path] := by
  unfold writeStep
  split
  · rfl
  · split <;> rfl

theorem foldl_deleteStep_trace (appPath : List Char) (ps : List (List Char)) :
    ∀ st : ApplyState,
      (ps.foldl (deleteStep appPath) st).trace = st.trace ++ ps.map OpEvent.del := by
  induction ps with
  | nil => intro st; simp
  | cons p ps ih =>
    intro st
    simp only [List.foldl_cons, List.map_cons, ih, deleteStep_trace,
      List.append_assoc, List.cons_append, List.nil_append]

theorem foldl_renameStep_trace (appPath : List Char) (ts : List RenameTag) :
    ∀ st : ApplyState,
      (ts.foldl (renameStep appPath) st).trace =
        st.trace ++ ts.map (fun t => OpEvent.ren t.fromPath t.toPath) := by
  induction ts with
  | nil => intro st; simp
  | cons t ts ih =>
    intro st
    simp only [List.foldl_cons, List.map_cons, ih, renameStep_trace,
      List.append_assoc, List.cons_append, List.nil_append]

theorem foldl_writeStep_trace (appPath : List Char) (um : UploadsMap)
    (ws : List WriteTag) :
    ∀ st : ApplyState,
      (ws.foldl (writeStep appPath um) st).trace =
        st.trace ++ ws.map (fun t => OpEvent.wr t.path) := by
  induction ws with
  | nil => intro st; simp
  | cons w ws ih =>
    intro st
    simp only [List.foldl_cons, List.map_cons, ih, writeStep_trace,
      List.append_assoc, List.cons_append, List.nil_append]

/-- Boolean test for a thrown `safeJoin`. -/
def isErrB : Except (List Char) (List Char) → Bool
  | .error _ => true
  | .ok _ => false

/-! ## Claim C2 -/

/-- C2: the claim fails on the code.  Failing input: a producer emitting the
two answer fragments `"a"`, `"b"` with the abort signal observed from the
check before the second fragment on (the signal is monotone and true at
clock 1, and there are two fragments, so the abort is observed mid-stream).
`process` returns normally and `fullResponse` is exactly the text processed
before the abort — but `wasAborted` is `false`, not `true`: the cooperative
`break` returns the partial stream without any thrown error, and the flag is
set only in the `catch` handler. -/
theorem c2_cooperative_abort_leaves_wasAborted_false :
    (fun n => decide (1 ≤ n)) 1 = true ∧
    ([(⟨"text-delta", ("a").data⟩ : StreamPart), ⟨"text-delta", ("b").data⟩].length = 2) ∧
    process (fun _ => [⟨"text-delta", ("a").data⟩, ⟨"text-delta", ("b").data⟩])
      (fun n => decide (1 ≤ n)) none 2 [] =
      { fullResponse := ("a").data, wasTruncated := false, autoFixAttempts := 0,
        wasAborted := false } := by
  refine ⟨by decide, by decide, by decide⟩

/-! ## Claim C3 -/

/-- C3: the claim fails on the code.  Failing input: the first round streams
the truncated document D = `<dyad-write path="a.txt">hi` and the continuation
producer answers with C = `</dyad-write>`.  The wrapper observer installed
for the continuation round assigns the outer accumulator to the inner one
(which starts empty), so after the round the outer accumulator holds C, and
`fullResponse += continuation` then yields C ++ C: the prior partial document
is not preserved as a prefix and the continuation output appears twice. -/
theorem c3_continuation_discards_prior_document :
    (process (fun ms =>
        if ms.length = 0
        then [⟨"text-delta", ("<dyad-write path=\"a.txt\">hi").data⟩]
        else [⟨"text-delta", ("</dyad-write>").data⟩])
      (fun _ => false) none 2 []).fullResponse =
      ("</dyad-write>").data ++ ("</dyad-write>").data ∧
    ("</dyad-write>").data ++ ("</dyad-write>").data ≠
      ("<dyad-write path=\"a.txt\">hi").data ++ ("</dyad-write>").data := by
  refine ⟨by decide, by decide⟩

/-! ## Claim C7 -/

/-- C7: for every parsed response, initial filesystem and uploads map, the
manifest's `hasChanges` flag is true iff at least one of `writtenFiles`,
`renamedFiles`, `deletedFiles` is non-empty; and the flag is independent of
the error field — a batch whose only operation fails reports an error with
`hasChanges = false`, while a batch with a failing delete and a succeeding
write reports an error with `hasChanges = true`. -/
theorem c7_hasChanges_iff_effect :
    (∀ appPath pr fs0 um,
      ((applyFileChanges appPath pr fs0 um).result.hasChanges = true ↔
        ((applyFileChanges appPath pr fs0 um).result.writtenFiles ≠ [] ∨
         (applyFileChanges appPath pr fs0 um).result.renamedFiles ≠ [] ∨
         (applyFileChanges appPath pr fs0 um).result.deletedFiles ≠ []))) ∧
    ((applyFileChanges (("/app").data) { deletePaths := [("../evil").data] }
        [] []).result.error ≠ none ∧
     (applyFileChanges (("/app").data) { deletePaths := [("../evil").data] }
        [] []).result.hasChanges = false) ∧
    ((applyFileChanges (("/app").data)
        { deletePaths := [("../evil").data],
          writeTags := [⟨("ok.txt").data, ("hi").data, none⟩] }
        [] []).result.error ≠ none ∧
     (applyFileChanges (("/app").data)
        { deletePaths := [("../evil").data],
          writeTags := [⟨("ok.txt").data, ("hi").data, none⟩] }
        [] []).result.hasChanges = true) := by
  refine ⟨fun appPath pr fs0 um => ?_, by decide, by decide⟩
  simp [applyFileChanges]

/-! ## Claim C5 -/

/-- C5: the applier attempts all deletes first, then all renames, then all
writes — the attempt trace of `applyFileChanges` is exactly the delete events
in order, then the rename events, then the write events, for every input.
In the overlap scenario (delete `a`; rename `a -> b`; write `b`, with `a`
initially present) the delete removes `a` first, the rename then warns about
the missing source instead of failing, and the write still succeeds: the
manifest shows `a` deleted, nothing renamed, `b` written and no error. -/
theorem c5_delete_rename_write_order :
    (∀ appPath pr fs0 um,
      (applyFileChanges appPath pr fs0 um).trace =
        pr.deletePaths.map OpEvent.del ++
        pr.renameTags.map (fun t => OpEvent.ren t.fromPath t.toPath) ++
        pr.writeTags.map (fun t => OpEvent.wr t.path)) ∧
    ((applyFileChanges (("/app").data)
        { deletePaths := [("a").data],
          renameTags := [⟨("a").data, ("b").data⟩],
          writeTags := [⟨("b").data, ("new").data, none⟩] }
        [(("/app/a").data, ("old").data)] []).result.deletedFiles =
          [("a").data] ∧
     (applyFileChanges (("/app").data)
        { deletePaths := [("a").data],
          renameTags := [⟨("a").data, ("b").data⟩],
          writeTags := [⟨("b").data, ("new").data, none⟩] }
        [(("/app/a").data, ("old").data)] []).result.renamedFiles = [] ∧
     (applyFileChanges (("/app").data)
        { deletePaths := [("a").data],
          renameTags := [⟨("a").data, ("b").data⟩],
          writeTags := [⟨("b").data, ("new").data, none⟩] }
        [(("/app/a").data, ("old").data)] []).warns =
          [renWarnMsg (("a").data)] ∧
     (applyFileChanges (("/app").data)
        { deletePaths := [("a").data],
          renameTags := [⟨("a").data, ("b").data⟩],
          writeTags := [⟨("b").data, ("new").data, none⟩] }
        [(("/app/a").data, ("old").data)] []).result.writtenFiles =
          [("b").data] ∧
     (applyFileChanges (("/app").data)
        { deletePaths := [("a").data],
          renameTags := [⟨("a").data, ("b").data⟩],
          writeTags := [⟨("b").data, ("new").data, none⟩] }
        [(("/app/a").data, ("old").data)] []).result.error = none) := by
  constructor
  · intro appPath pr fs0 um
    show (pr.writeTags.foldl (writeStep appPath um)
      (pr.renameTags.foldl (renameStep appPath)
        (pr.deletePaths.foldl (deleteStep appPath) { fs := fs0 }))).trace = _
    rw [foldl_writeStep_trace, foldl_renameStep_trace, foldl_deleteStep_trace]
    simp
  · refine ⟨by decide, by decide, by decide, by decide, by decide⟩

/-! ## Claim C6 -/

/-- C6: a failing delete, rename or write (here: a `safeJoin` traversal
error, the only throwing operation in the model) only appends its message to
the aggregated error list and its event to the trace — the state seen by the
remaining operations of the batch is otherwise unchanged, so the rest of the
batch proceeds exactly as without the failure; an absent delete target or an
absent rename source appends a warning, not an error; the manifest's error
field is the `"; "`-join of the aggregated messages (and `none` when there
are none); and in a concrete batch a failing first delete does not prevent
the second delete from being applied. -/
theorem c6_partial_failure_semantics :
    (∀ appPath st p, isErrB (safeJoin appPath p) = true →
      deleteStep appPath st p =
        { st with trace := st.trace ++ [OpEvent.del p]
                  errs := st.errs ++ [delFailMsg p] }) ∧
    (∀ appPath st (t : RenameTag), isErrB (safeJoin appPath t.fromPath) = true →
      renameStep appPath st t =
        { st with trace := st.trace ++ [OpEvent.ren t.fromPath t.toPath]
                  errs := st.errs ++ [renFailMsg t.fromPath t.toPath] }) ∧
    (∀ appPath um st (tag : WriteTag), isErrB (safeJoin appPath tag.path) = true →
      writeStep appPath um st tag =
        { st with trace := st.trace ++ [OpEvent.wr tag.path]
                  errs := st.errs ++ [wrFailMsg tag.path] }) ∧
    (∀ appPath st p full, safeJoin appPath p = .ok full →
      fsLookup st.fs full = none →
      deleteStep appPath st p =
        { st with trace := st.trace ++ [OpEvent.del p]
                  warns := st.warns ++ [delWarnMsg p] }) ∧
    (∀ appPath st (t : RenameTag) ff tf, safeJoin appPath t.fromPath = .ok ff →
      safeJoin appPath t.toPath = .ok tf → fsLookup st.fs ff = none →
      renameStep appPath st t =
        { st with trace := st.trace ++ [OpEvent.ren t.fromPath t.toPath]
                  warns := st.warns ++ [renWarnMsg t.fromPath] }) ∧
    (∀ appPath pr fs0 um,
      (applyFileChanges appPath pr fs0 um).result.error =
        (if (applyFileChanges appPath pr fs0 um).errs = [] then none
         else some (joinSemi (applyFileChanges appPath pr fs0 um).errs))) ∧
    ((applyFileChanges (("/app").data)
        { deletePaths := [("../evil").data, ("a").data] }
        [(("/app/a").data, ("x").data)] []).result.deletedFiles =
          [("a").data] ∧
     (applyFileChanges (("/app").data)
        { deletePaths := [("../evil").data, ("a").data] }
        [(("/app/a").data, ("x").data)] []).result.error =
          some (delFailMsg (("../evil").data))) := by
  refine ⟨?_, ?_, ?_, ?_, ?_, ?_, by decide, by decide⟩
  · intro appPath st p h
    unfold deleteStep
    unfold isErrB at h
    split at h
    · rfl
    · simp at h
  · intro appPath st t h
    unfold renameStep
    unfold isErrB at h
    split at h
    · next e heq => rw [heq]
    · simp at h
  · intro appPath um st tag h
    unfold writeStep
    unfold isErrB at h
    split at h
    · rfl
    · simp at h
  · intro appPath st p full h hl
    unfold deleteStep
    rw [h]
    simp only [hl]
  · intro appPath st t ff tf hf ht hl
    unfold renameStep
    rw [hf, ht]
    simp only [hl]
  · intro appPath pr fs0 um
    rfl

/-- Witness for C6: each hypothesis of the theorem is satisfied at a concrete
input and the theorem applies there. -/
theorem c6_partial_failure_semantics_witness :
    isErrB (safeJoin (("/app").data) (("../evil").data)) = true ∧
    deleteStep (("/app").data) { fs := [] } (("../evil").data) =
      { ({ fs := [] } : ApplyState) with
          trace := ({ fs := [] } : ApplyState).trace ++ [OpEvent.del (("../evil").data)]
          errs := ({ fs := [] } : ApplyState).errs ++ [delFailMsg (("../evil").data)] } ∧
    renameStep (("/app").data) { fs := [] } ⟨("../evil").data, ("b").data⟩ =
      { ({ fs := [] } : ApplyState) with
          trace := ({ fs := [] } : ApplyState).trace ++
            [OpEvent.ren (("../evil").data) (("b").data)]
          errs := ({ fs := [] } : ApplyState).errs ++
            [renFailMsg (("../evil").data) (("b").data)] } ∧
    writeStep (("/app").data) [] { fs := [] } ⟨("../evil").data, ("hi").data, none⟩ =
      { ({ fs := [] } : ApplyState) with
          trace := ({ fs := [] } : ApplyState).trace ++ [OpEvent.wr (("../evil").data)]
          errs := ({ fs := [] } : ApplyState).errs ++ [wrFailMsg (("../evil").data)] } ∧
    safeJoin (("/app").data) (("gone").data) = .ok (("/app/gone").data) ∧
    deleteStep (("/app").data) { fs := [] } (("gone").data) =
      { ({ fs := [] } : ApplyState) with
          trace := ({ fs := [] } : ApplyState).trace ++ [OpEvent.del (("gone").data)]
          warns := ({ fs := [] } : ApplyState).warns ++ [delWarnMsg (("gone").data)] } ∧
    renameStep (("/app").data) { fs := [] } ⟨("gone").data, ("b").data⟩ =
      { ({ fs := [] } : ApplyState) with
          trace := ({ fs := [] } : ApplyState).trace ++
            [OpEvent.ren (("gone").data) (("b").data)]
          warns := ({ fs := [] } : ApplyState).warns ++ [renWarnMsg (("gone").data)] } :=
  ⟨by decide,
   c6_partial_failure_semantics.1 (("/app").data) { fs := [] } (("../evil").data)
     (by decide),
   c6_partial_failure_semantics.2.1 (("/app").data) { fs := [] }
     ⟨("../evil").data, ("b").data⟩ (by decide),
   c6_partial_failure_semantics.2.2.1 (("/app").data) [] { fs := [] }
     ⟨("../evil").data, ("hi").data, none⟩ (by decide),
   by decide,
   c6_partial_failure_semantics.2.2.2.1 (("/app").data) { fs := [] }
     (("gone").data) (("/app/gone").data) (by decide) (by decide),
   c6_partial_failure_semantics.2.2.2.2.1 (("/app").data) { fs := [] }
     ⟨("gone").data, ("b").data⟩ (("/app/gone").data) (("/app/b").data)
     (by decide) (by decide) (by decide)⟩

/-! ## Lemmas: path resolution -/

/-- Close the split accumulator: flush a non-empty pending segment. -/
def closePair (p : List Char × List (List Char)) : List (List Char) :=
  if p.1 = [] then p.2 else p.1 :: p.2

theorem splitSegs_eq_closePair (l : List Char) :
    splitSegs l = closePair (l.foldr splitStep ([], [])) := rfl

theorem splitStep_sep (p : List Char × List (List Char)) :
    splitStep '/' p = ([], closePair p) := by
  unfold splitStep closePair
  simp

theorem splitStep_nonsep {c : Char} (hc : c ≠ '/') (p : List Char × List (List Char)) :
    splitStep c p = (c :: p.1, p.2) := by
  unfold splitStep
  simp [hc]

theorem foldr_splitStep_props (l : List Char) :
    '/' ∉ (l.foldr splitStep ([], ([] : List (List Char)))).1 ∧
    ∀ s ∈ (l.foldr splitStep ([], ([] : List (List Char)))).2, s ≠ [] ∧ '/' ∉ s := by
  induction l with
  | nil => simp
  | cons c cs ih =>
    rw [List.foldr_cons]
    by_cases hc : c = '/'
    · subst hc
      rw [splitStep_sep]
      refine ⟨by simp, ?_⟩
      intro s hs
      have hs2 : s ∈ closePair (cs.foldr splitStep ([], [])) := hs
      unfold closePair at hs2
      split at hs2
      · exact ih.2 s hs2
      · next hne =>
        rcases List.mem_cons.mp hs2 with rfl | hmem
        · exact ⟨hne, ih.1⟩
        · exact ih.2 s hmem
    · rw [splitStep_nonsep hc]
      refine ⟨?_, ih.2⟩
      intro hmem
      have hmem2 : '/' ∈ c :: (cs.foldr splitStep ([], [])).1 := hmem
      rcases List.mem_cons.mp hmem2 with h | h
      · exact hc h.symm
      · exact ih.1 h

theorem splitSegs_props (l : List Char) :
    ∀ s ∈ splitSegs l, s ≠ [] ∧ '/' ∉ s := by
  intro s hs
  rw [splitSegs_eq_closePair] at hs
  unfold closePair at hs
  split at hs
  · exact (foldr_splitStep_props l).2 s hs
  · rcases List.mem_cons.mp hs with rfl | hmem
    · exact ⟨by assumption, (foldr_splitStep_props l).1⟩
    · exact (foldr_splitStep_props l).2 s hmem

theorem splitSegs_cons_sep (l : List Char) : splitSegs ('/' :: l) = splitSegs l := by
  rw [splitSegs_eq_closePair, splitSegs_eq_closePair, List.foldr_cons]
  unfold splitStep closePair
  simp

theorem foldr_splitStep_nosep (s : List Char) (hs : '/' ∉ s)
    (acc : List (List Char)) :
    s.foldr splitStep ([], acc) = (s, acc) := by
  induction s with
  | nil => rfl
  | cons c cs ih =>
    have hc : c ≠ '/' := fun h => hs (h ▸ List.mem_cons_self c cs)
    have hcs : '/' ∉ cs := fun h => hs (List.mem_cons_of_mem c h)
    rw [List.foldr_cons, ih hcs]
    unfold splitStep
    simp [hc]

theorem splitSegs_joinSegsRel (S : List (List Char))
    (h : ∀ s ∈ S, s ≠ [] ∧ '/' ∉ s) :
    splitSegs (joinSegsRel S) = S := by
  induction S with
  | nil => rfl
  | cons s S ih =>
    have hs := h s (List.mem_cons_self s S)
    cases S with
    | nil =>
      show splitSegs (joinSegsRel [s]) = [s]
      rw [show joinSegsRel [s] = s from rfl, splitSegs_eq_closePair,
        foldr_splitStep_nosep s hs.2]
      unfold closePair
      simp [hs.1]
    | cons s2 S2 =>
      have hrest : ∀ x ∈ s2 :: S2, x ≠ [] ∧ '/' ∉ x :=
        fun x hx => h x (List.mem_cons_of_mem s hx)
      show splitSegs (s ++ '/' :: joinSegsRel (s2 :: S2)) = s :: s2 :: S2
      rw [splitSegs_eq_closePair, List.foldr_append, List.foldr_cons]
      have h2 : splitStep '/' ((joinSegsRel (s2 :: S2)).foldr splitStep ([], [])) =
          ([], splitSegs (joinSegsRel (s2 :: S2))) := by
        rw [splitSegs_eq_closePair]
        unfold splitStep closePair
        simp
      rw [h2, ih hrest, foldr_splitStep_nosep s hs.2]
      unfold closePair
      simp [hs.1]

theorem foldl_normStep_mem (S : List (List Char)) :
    ∀ acc x, x ∈ S.foldl normStep acc → x ∈ acc ∨ x ∈ S := by
  induction S with
  | nil => intro acc x hx; exact Or.inl hx
  | cons s S ih =>
    intro acc x hx
    rw [List.foldl_cons] at hx
    rcases ih (normStep acc s) x hx with h | h
    · unfold normStep at h
      split at h
      · exact Or.inl h
      · split at h
        · exact Or.inl (List.dropLast_subset acc h)
        · rcases List.mem_append.mp h with h | h
          · exact Or.inl h
          · exact Or.inr (List.mem_cons.mpr (Or.inl (List.mem_singleton.mp h)))
    · exact Or.inr (List.mem_cons_of_mem s h)

theorem normSegs_mem {S : List (List Char)} {x : List Char}
    (hx : x ∈ normSegs S) : x ∈ S := by
  rcases foldl_normStep_mem S [] x hx with h | h
  · simp at h
  · exact h

theorem foldl_normStep_nodots (S : List (List Char)) :
    ∀ acc, (∀ x ∈ acc, x ≠ ['.'] ∧ x ≠ ['.', '.']) →
      ∀ x ∈ S.foldl normStep acc, x ≠ ['.'] ∧ x ≠ ['.', '.'] := by
  induction S with
  | nil => intro acc hacc x hx; exact hacc x hx
  | cons s S ih =>
    intro acc hacc x hx
    rw [List.foldl_cons] at hx
    refine ih (normStep acc s) ?_ x hx
    intro y hy
    unfold normStep at hy
    split at hy
    · exact hacc y hy
    · next h1 =>
      split at hy
      · next h2 => exact hacc y (List.dropLast_subset acc hy)
      · next h2 =>
        rcases List.mem_append.mp hy with h | h
        · exact hacc y h
        · have : y = s := List.mem_singleton.mp h
          subst this
          exact ⟨h1, h2⟩

theorem normSegs_nodots {S : List (List Char)} {x : List Char}
    (hx : x ∈ normSegs S) : x ≠ ['.'] ∧ x ≠ ['.', '.'] :=
  foldl_normStep_nodots S [] (by simp) x hx

theorem foldl_normStep_clean (B : List (List Char))
    (h : ∀ s ∈ B, s ≠ ['.'] ∧ s ≠ ['.', '.']) :
    ∀ acc, B.foldl normStep acc = acc ++ B := by
  induction B with
  | nil => intro acc; simp
  | cons b B ih =>
    intro acc
    have hb := h b (List.mem_cons_self b B)
    have hB : ∀ s ∈ B, s ≠ ['.'] ∧ s ≠ ['.', '.'] :=
      fun s hs => h s (List.mem_cons_of_mem b hs)
    rw [List.foldl_cons]
    have hstep : normStep acc b = acc ++ [b] := by
      unfold normStep
      rw [if_neg hb.1, if_neg hb.2]
    rw [hstep, ih hB]
    simp

theorem normSegs_append_clean (A B : List (List Char))
    (h : ∀ s ∈ B, s ≠ ['.'] ∧ s ≠ ['.', '.']) :
    normSegs (A ++ B) = normSegs A ++ B := by
  unfold normSegs
  rw [List.foldl_append]
  exact foldl_normStep_clean B h (A.foldl normStep [])

theorem normSegs_idem_clean (B : List (List Char))
    (h : ∀ s ∈ B, s ≠ ['.'] ∧ s ≠ ['.', '.']) :
    normSegs B = B := by
  unfold normSegs
  rw [foldl_normStep_clean B h []]
  simp

theorem splitSegs_joinAbs (S : List (List Char))
    (h : ∀ s ∈ S, s ≠ [] ∧ '/' ∉ s) :
    splitSegs (joinAbs S) = S := by
  unfold joinAbs
  rw [splitSegs_cons_sep]
  exact splitSegs_joinSegsRel S h

theorem splitSegs_pathResolve1 (p : List Char) :
    splitSegs (pathResolve1 p) = normSegs (splitSegs p) := by
  unfold pathResolve1
  refine splitSegs_joinAbs _ ?_
  intro s hs
  exact splitSegs_props p s (normSegs_mem hs)

theorem joinSegsRel_append_ne (B R : List (List Char)) (hB : B ≠ []) (hR : R ≠ []) :
    joinSegsRel (B ++ R) = joinSegsRel B ++ '/' :: joinSegsRel R := by
  induction B with
  | nil => exact absurd rfl hB
  | cons b B ih =>
    cases B with
    | nil =>
      cases R with
      | nil => exact absurd rfl hR
      | cons r R2 => rfl
    | cons b2 B2 =>
      rw [show (b :: b2 :: B2) ++ R = b :: ((b2 :: B2) ++ R) from rfl]
      rw [show joinSegsRel (b :: ((b2 :: B2) ++ R)) =
        b ++ '/' :: joinSegsRel ((b2 :: B2) ++ R) from rfl]
      rw [ih (by simp)]
      rw [show joinSegsRel (b :: b2 :: B2) =
        b ++ '/' :: joinSegsRel (b2 :: B2) from rfl]
      simp

theorem joinAbs_isPrefixOf_append (B R : List (List Char)) :
    (joinAbs B).isPrefixOf (joinAbs (B ++ R)) = true := by
  rw [List.isPrefixOf_iff_prefix]
  cases R with
  | nil => simp
  | cons r R2 =>
    cases B with
    | nil =>
      unfold joinAbs
      exact List.cons_prefix_cons.mpr ⟨rfl, List.nil_prefix⟩
    | cons b B2 =>
      unfold joinAbs
      rw [joinSegsRel_append_ne (b :: B2) (r :: R2) (by simp) (by simp)]
      refine List.cons_prefix_cons.mpr ⟨rfl, ?_⟩
      rw [show joinSegsRel (b :: B2) ++ '/' :: joinSegsRel (r :: R2) =
        joinSegsRel (b :: B2) ++ ('/' :: joinSegsRel (r :: R2)) from rfl]
      exact List.prefix_append _ _

/-- The segment list of the literal relative path `src/a/b.ts`. -/
def srcSegsLit : List (List Char) := [("src").data, ("a").data, ("b.ts").data]

theorem safeJoin_src (root : List Char) :
    safeJoin root (("src/a/b.ts").data) =
      .ok (joinAbs (normSegs (splitSegs root) ++ srcSegsLit)) ∧
    isDescendant root (joinAbs (normSegs (splitSegs root) ++ srcSegsLit)) = true := by
  have hBprops : ∀ s ∈ normSegs (splitSegs root), s ≠ [] ∧ '/' ∉ s :=
    fun s hs => splitSegs_props root s (normSegs_mem hs)
  have hBclean : ∀ s ∈ normSegs (splitSegs root), s ≠ ['.'] ∧ s ≠ ['.', '.'] :=
    fun s hs => normSegs_nodots hs
  have hsrcclean : ∀ s ∈ srcSegsLit, s ≠ ['.'] ∧ s ≠ ['.', '.'] := by decide
  have hsrcprops : ∀ s ∈ srcSegsLit, s ≠ [] ∧ '/' ∉ s := by decide
  have hres : pathResolve2 (pathResolve1 root) (("src/a/b.ts").data) =
      joinAbs (normSegs (splitSegs root) ++ srcSegsLit) := by
    unfold pathResolve2
    rw [splitSegs_pathResolve1]
    rw [show splitSegs (("src/a/b.ts").data) = srcSegsLit from by decide]
    rw [normSegs_append_clean _ _ hsrcclean,
      normSegs_idem_clean _ hBclean]
    rfl
  have hboth : ∀ s ∈ normSegs (splitSegs root) ++ srcSegsLit, s ≠ [] ∧ '/' ∉ s := by
    intro s hs
    rcases List.mem_append.mp hs with h | h
    · exact hBprops s h
    · exact hsrcprops s h
  constructor
  · show (if (pathResolve1 root).isPrefixOf
        (pathResolve2 (pathResolve1 root) (("src/a/b.ts").data)) then _ else _) = _
    rw [hres]
    rw [show pathResolve1 root = joinAbs (normSegs (splitSegs root)) from rfl]
    rw [joinAbs_isPrefixOf_append]
    rfl
  · unfold isDescendant
    rw [splitSegs_joinAbs _ hboth]
    rw [normSegs_append_clean _ _ hsrcclean, normSegs_idem_clean _ hBclean]
    simp only [Bool.and_eq_true, decide_eq_true_eq]
    constructor
    · rw [List.isPrefixOf_iff_prefix]
      exact List.prefix_append _ _
    · intro h
      have hlen := congrArg List.length h
      simp [srcSegsLit] at hlen

theorem pathResolve2_headChar (base rel : List Char) :
    (pathResolve2 base rel).head? = some '/' := by
  unfold pathResolve2
  split
  · rfl
  · rfl

/-! ## Claim C1 -/

/-- C1 (amended): `safeJoin` either throws or returns a path that starts with
the separator and has the normalised root as a plain string prefix — not
necessarily a true descendant of the root, since the check is a character
prefix test without a separator boundary; resolving `../../etc/passwd` fails
with the traversal error for the root `/home/user/project` (and any root that
is not a string prefix of the resolved path, but not for every root); and
resolving `src/a/b.ts` against any absolute root succeeds and the result is a
true descendant of the root. -/
theorem c1_safeJoin_containment :
    (∀ basePath relativePath p, safeJoin basePath relativePath = .ok p →
      (pathResolve1 basePath).isPrefixOf p = true ∧ p.head? = some '/') ∧
    safeJoin (("/home/user/project").data) (("../../etc/passwd").data) =
      .error ((("Path traversal attempt detected: ").data) ++
        (("../../etc/passwd").data) ++ ((" escapes ").data) ++
        (("/home/user/project").data)) ∧
    (∀ root t, root = '/' :: t →
      safeJoin root (("src/a/b.ts").data) =
        .ok (joinAbs (normSegs (splitSegs root) ++ srcSegsLit)) ∧
      isDescendant root (joinAbs (normSegs (splitSegs root) ++ srcSegsLit)) = true) := by
  refine ⟨?_, by decide, fun root t _ => safeJoin_src root⟩
  intro basePath relativePath p h
  unfold safeJoin at h
  dsimp only at h
  split at h
  · next hcond =>
    cases h
    exact ⟨hcond, pathResolve2_headChar _ _⟩
  · cases h

/-- Witness for C1: the amended theorem applied at concrete inputs, with each
hypothesis discharged there. -/
theorem c1_safeJoin_containment_witness :
    ((pathResolve1 (("/x").data)).isPrefixOf (("/x/y").data) = true ∧
      (("/x/y").data).head? = some '/') ∧
    (("/r").data = '/' :: ("r").data) ∧
    (safeJoin (("/r").data) (("src/a/b.ts").data) =
        .ok (joinAbs (normSegs (splitSegs (("/r").data)) ++ srcSegsLit)) ∧
      isDescendant (("/r").data)
        (joinAbs (normSegs (splitSegs (("/r").data)) ++ srcSegsLit)) = true) :=
  ⟨c1_safeJoin_containment.1 (("/x").data) (("y").data) (("/x/y").data) (by decide),
   by decide,
   c1_safeJoin_containment.2.2 (("/r").data) (("r").data) (by decide)⟩

/-- Counterexample for C1 as stated: with root `/a`, the declared relative
path `../ab` resolves to `/ab`, which passes the string-prefix check and is
returned although it does not lie inside the root; and with root `/`, the
path `../../etc/passwd` resolves to `/etc/passwd` and is returned — it does
not fail with the traversal error, contradicting "against any root". -/
theorem c1_safeJoin_claim_counterexample :
    safeJoin (("/a").data) (("../ab").data) = .ok (("/ab").data) ∧
    isDescendant (("/a").data) (("/ab").data) = false ∧
    safeJoin (("/").data) (("../../etc/passwd").data) =
      .ok (("/etc/passwd").data) := by
  refine ⟨by decide, by decide, by decide⟩

/-! ## Claim C8 -/

theorem getAddDependencyPackagesFuel_eq (fuel : Nat) :
    ∀ s, getAddDependencyPackagesFuel fuel s =
      (depValuesFuel fuel s).flatMap depTokens := by
  induction fuel with
  | zero => intro s; rfl
  | succ fuel ih =>
    intro s
    cases s with
    | nil => rfl
    | cons c cs =>
      unfold getAddDependencyPackagesFuel depValuesFuel
      cases h : depMatchAt (c :: cs) with
      | some p => simp [ih]
      | none => simp [ih]

/-- C8 (amended): `getAddDependencyPackages` splits each matched tag's
`packages` attribute value on the space character only (not on all
whitespace), drops empty tokens, and flattens the tokens of all matched tags
into one combined list preserving encounter order with duplicates preserved;
two tags with `packages="react lodash"` and `packages="zod"` yield
`["react", "lodash", "zod"]` in that order, and a repeated package name is
kept twice. -/
theorem c8_dependency_aggregation :
    (∀ s, getAddDependencyPackages s = (depValues s).flatMap depTokens) ∧
    getAddDependencyPackages
      (("<dyad-add-dependency packages=\"react lodash\"></dyad-add-dependency> and <dyad-add-dependency packages=\"zod\"></dyad-add-dependency>").data) =
      [("react").data, ("lodash").data, ("zod").data] ∧
    getAddDependencyPackages
      (("<dyad-add-dependency packages=\"x  x\"></dyad-add-dependency>").data) =
      [("x").data, ("x").data] := by
  refine ⟨fun s => getAddDependencyPackagesFuel_eq s.length s, by decide, by decide⟩

/-- Counterexample for C8 as stated: a `packages` value containing a tab is
returned as a single token — the source splits on the space character only,
not on whitespace as the claim says. -/
theorem c8_whitespace_counterexample :
    getAddDependencyPackages
      (("<dyad-add-dependency packages=\"a\tb\"></dyad-add-dependency>").data) =
      [("a\tb").data] ∧
    specPackagesWhitespace
      (("<dyad-add-dependency packages=\"a\tb\"></dyad-add-dependency>").data) =
      [("a").data, ("b").data] ∧
    getAddDependencyPackages
      (("<dyad-add-dependency packages=\"a\tb\"></dyad-add-dependency>").data) ≠
    specPackagesWhitespace
      (("<dyad-add-dependency packages=\"a\tb\"></dyad-add-dependency>").data) := by
  refine ⟨by decide, by decide, by decide⟩

/-! ## Lemmas: literal occurrences and bounded searches -/

theorem litAt_zero (pat s : List Char) : litAt pat s 0 = pat.isPrefixOf s := by
  simp [litAt]

theorem litAt_succ_cons (pat s : List Char) (c : Char) (i : Nat) :
    litAt pat (c :: s) (i + 1) = litAt pat s i := by
  simp [litAt, List.drop_succ_cons]

theorem occursIn_iff (pat s : List Char) :
    occursIn pat s = true ↔ ∃ i, litAt pat s i = true := by
  induction s with
  | nil =>
    constructor
    · intro h; exact ⟨0, h⟩
    · intro ⟨i, hi⟩
      unfold occursIn
      unfold litAt at hi
      rw [List.drop_nil] at hi
      exact hi
  | cons c cs ih =>
    unfold occursIn
    rw [Bool.or_eq_true, ih]
    constructor
    · rintro (h | ⟨i, hi⟩)
      · exact ⟨0, by rw [litAt_zero]; exact h⟩
      · exact ⟨i + 1, by rw [litAt_succ_cons]; exact hi⟩
    · rintro ⟨i, hi⟩
      cases i with
      | zero => exact Or.inl (by rw [litAt_zero] at hi; exact hi)
      | succ j => exact Or.inr ⟨j, by rw [litAt_succ_cons] at hi; exact hi⟩

theorem isPrefixOf_head (pat z : List Char) (hp : pat.isPrefixOf z = true)
    {c : Char} (hc : pat.head? = some c) : z.head? = some c := by
  cases pat with
  | nil => cases hc
  | cons a as =>
    cases z with
    | nil => cases hp
    | cons b bs =>
      rw [List.isPrefixOf_cons₂, Bool.and_eq_true, beq_iff_eq] at hp
      cases hc
      rw [hp.1]
      rfl

theorem isPrefixOf_eq_append (pat s : List Char) (h : pat.isPrefixOf s = true) :
    s = pat ++ s.drop pat.length := by
  rw [List.isPrefixOf_iff_prefix] at h
  exact (List.prefix_iff_eq_append.mp h).symm

theorem litAt_append_left_blocked (pat A B : List Char) (c0 : Char)
    (hpat : pat.head? = some c0) (hA : ∀ x ∈ A, x ≠ c0) {i : Nat}
    (hi : i < A.length) : litAt pat (A ++ B) i = false := by
  by_contra h
  rw [Bool.not_eq_false] at h
  unfold litAt at h
  rw [List.drop_append_of_le_length (Nat.le_of_lt hi)] at h
  have hne : A.drop i ≠ [] := by
    intro hnil
    have := congrArg List.length hnil
    simp at this
    omega
  obtain ⟨a, ha⟩ : ∃ a, (A.drop i).head? = some a := by
    cases hd : (A.drop i).head? with
    | none => exact absurd (List.head?_eq_none_iff.mp hd) hne
    | some a => exact ⟨a, rfl⟩
  have hd2 : ((A.drop i) ++ B).head? = some a := by
    rw [List.head?_append, ha]
    rfl
  have := isPrefixOf_head pat _ h hpat
  rw [hd2] at this
  have haeq : a = c0 := by injection this
  exact hA a (List.drop_subset i A (List.mem_of_mem_head? (Option.mem_def.mpr ha))) haeq

theorem litAt_append_right (pat A B : List Char) (i : Nat) :
    litAt pat (A ++ B) (A.length + i) = litAt pat B i := by
  unfold litAt
  rw [List.drop_append]

theorem firstBelow_zero (p : Nat → Bool) : firstBelow p 0 = none := rfl

theorem firstBelow_succ (p : Nat → Bool) (n : Nat) :
    firstBelow p (n + 1) =
      if p 0 then some 0 else (firstBelow (fun i => p (i + 1)) n).map (· + 1) := by
  unfold firstBelow
  rw [List.range_succ_eq_map, List.find?_cons]
  cases h : p 0 with
  | true => simp [h]
  | false =>
    simp only [h, Bool.false_eq_true, if_false]
    rw [List.find?_map]
    rfl

theorem lastBelow_zero (p : Nat → Bool) : lastBelow p 0 = none := rfl

theorem lastBelow_succ (p : Nat → Bool) (n : Nat) :
    lastBelow p (n + 1) =
      (if p n then some n else lastBelow p n) := by
  unfold lastBelow
  rw [List.range_succ, List.foldl_append]
  rfl

theorem firstBelow_eq_none_iff (p : Nat → Bool) (n : Nat) :
    firstBelow p n = none ↔ ∀ i < n, p i = false := by
  unfold firstBelow
  rw [List.find?_eq_none]
  constructor
  · intro h i hi
    have := h i (List.mem_range.mpr hi)
    exact Bool.not_eq_true _ |>.mp this
  · intro h x hx
    rw [h x (List.mem_range.mp hx)]
    simp

theorem litAt_of_ge_length (pat t : List Char) (hpat : pat ≠ []) {i : Nat}
    (hi : t.length ≤ i) : litAt pat t i = false := by
  unfold litAt
  rw [List.drop_eq_nil_of_le hi]
  cases pat with
  | nil => exact absurd rfl hpat
  | cons a as => rfl

theorem litAt_drop (pat t : List Char) (k i : Nat) :
    litAt pat (t.drop k) i = litAt pat t (k + i) := by
  unfold litAt
  rw [List.drop_drop, Nat.add_comm]

/-! ## Lemmas: chat summary extraction -/

theorem summaryLazyBody_eq (t : List Char) :
    summaryLazyBody t =
      (firstBelow (litAt summaryCloseLit t) (t.length + 1)).map (fun j => t.take j) := by
  induction t with
  | nil =>
    rw [show ([] : List Char).length + 1 = 1 from rfl, firstBelow_succ, litAt_zero]
    rw [show summaryCloseLit.isPrefixOf [] = false from by decide]
    simp [firstBelow_zero, summaryLazyBody]
  | cons c cs ih =>
    unfold summaryLazyBody
    rw [show (c :: cs).length + 1 = (cs.length + 1) + 1 from by simp,
      firstBelow_succ, litAt_zero]
    cases h : summaryCloseLit.isPrefixOf (c :: cs) with
    | true => simp
    | false =>
      simp only [Bool.false_eq_true, if_false]
      have hshift : (fun i => litAt summaryCloseLit (c :: cs) (i + 1)) =
          litAt summaryCloseLit cs := by
        funext i
        exact litAt_succ_cons _ _ _ _
      rw [hshift, ih, Option.map_map, Option.map_map]
      congr 1

theorem summaryOpen_decomp {c : Char} {cs : List Char}
    (ho : summaryOpenLit.isPrefixOf (c :: cs) = true) :
    cs = ("dyad-chat-summary>").data ++ (c :: cs).drop summaryOpenLit.length := by
  have h3 := isPrefixOf_eq_append _ _ ho
  rw [show summaryOpenLit = '<' :: ("dyad-chat-summary>").data from by decide] at h3
  rw [List.cons_append] at h3
  exact (List.cons_eq_cons.mp h3).2

theorem noClose_cs_of_noClose_after {c : Char} {cs : List Char}
    (ho : summaryOpenLit.isPrefixOf (c :: cs) = true)
    (h : ∀ i, litAt summaryCloseLit ((c :: cs).drop summaryOpenLit.length) i = false) :
    ∀ i, litAt summaryCloseLit cs i = false := by
  intro i
  rw [summaryOpen_decomp ho]
  by_cases hi : i < (("dyad-chat-summary>").data).length
  · exact litAt_append_left_blocked _ _ _ '<' (by decide) (by decide) hi
  · have hlen : (("dyad-chat-summary>").data).length = 18 := by decide
    rw [show i = (("dyad-chat-summary>").data).length + (i - 18) from by omega]
    rw [litAt_append_right]
    exact h _

theorem getChatSummaryGo_eq_none_of_noClose (t : List Char)
    (h : ∀ i, litAt summaryCloseLit t i = false) :
    getChatSummaryGo t = none := by
  induction t with
  | nil => rfl
  | cons c cs ih =>
    have hcs : ∀ i, litAt summaryCloseLit cs i = false := by
      intro i
      have h2 := h (i + 1)
      rw [litAt_succ_cons] at h2
      exact h2
    have h1 : summaryMatchAt (c :: cs) = none := by
      unfold summaryMatchAt
      cases ho : summaryOpenLit.isPrefixOf (c :: cs) with
      | false => simp [ho]
      | true =>
        simp only [ho, if_true]
        rw [summaryLazyBody_eq]
        have hnone : firstBelow
            (litAt summaryCloseLit ((c :: cs).drop summaryOpenLit.length))
            (((c :: cs).drop summaryOpenLit.length).length + 1) = none := by
          rw [firstBelow_eq_none_iff]
          intro i _
          rw [litAt_drop]
          exact h _
        rw [hnone]
        rfl
    unfold getChatSummaryGo
    rw [h1]
    exact ih hcs

theorem specChatSummary_cons_of_notOpen (c : Char) (cs : List Char)
    (ho : summaryOpenLit.isPrefixOf (c :: cs) = false) :
    specChatSummary (c :: cs) = specChatSummary cs := by
  unfold specChatSummary
  rw [show (c :: cs).length + 1 = (cs.length + 1) + 1 from by simp,
    firstBelow_succ, litAt_zero, ho]
  simp only [Bool.false_eq_true, if_false]
  have hshift : (fun i => litAt summaryOpenLit (c :: cs) (i + 1)) =
      litAt summaryOpenLit cs := by
    funext i
    exact litAt_succ_cons _ _ _ _
  rw [hshift]
  cases hfb : firstBelow (litAt summaryOpenLit cs) (cs.length + 1) with
  | none => rfl
  | some i =>
    have hdrop : (c :: cs).drop (i + 1 + summaryOpenLit.length) =
        cs.drop (i + summaryOpenLit.length) := by
      rw [show i + 1 + summaryOpenLit.length = (i + summaryOpenLit.length) + 1 from
        by omega, List.drop_succ_cons]
    simp only [Option.map_some', hdrop]

theorem specChatSummary_cons_of_open (c : Char) (cs : List Char)
    (ho : summaryOpenLit.isPrefixOf (c :: cs) = true) :
    specChatSummary (c :: cs) =
      (match firstBelow
          (litAt summaryCloseLit ((c :: cs).drop summaryOpenLit.length))
          (((c :: cs).drop summaryOpenLit.length).length + 1) with
        | none => none
        | some j => some (trimChars (((c :: cs).drop summaryOpenLit.length).take j))) := by
  unfold specChatSummary
  rw [show (c :: cs).length + 1 = (cs.length + 1) + 1 from by simp,
    firstBelow_succ, litAt_zero, ho]
  rfl

theorem getChatSummaryGo_eq_spec (s : List Char) :
    getChatSummaryGo s = specChatSummary s := by
  induction s with
  | nil => decide
  | cons c cs ih =>
    cases ho : summaryOpenLit.isPrefixOf (c :: cs) with
    | false =>
      have hm : summaryMatchAt (c :: cs) = none := by
        unfold summaryMatchAt
        simp [ho]
      unfold getChatSummaryGo
      rw [hm, specChatSummary_cons_of_notOpen c cs ho]
      exact ih
    | true =>
      have hm : summaryMatchAt (c :: cs) =
          summaryLazyBody ((c :: cs).drop summaryOpenLit.length) := by
        unfold summaryMatchAt
        simp [ho]
      unfold getChatSummaryGo
      rw [hm, summaryLazyBody_eq, specChatSummary_cons_of_open c cs ho]
      cases hfb : firstBelow
          (litAt summaryCloseLit ((c :: cs).drop summaryOpenLit.length))
          (((c :: cs).drop summaryOpenLit.length).length + 1) with
      | some j => simp only [Option.map_some']
      | none =>
        simp only [Option.map_none']
        have hnoclose : ∀ i,
            litAt summaryCloseLit ((c :: cs).drop summaryOpenLit.length) i = false := by
          intro i
          by_cases hi : i < ((c :: cs).drop summaryOpenLit.length).length + 1
          · exact (firstBelow_eq_none_iff _ _).mp hfb i hi
          · exact litAt_of_ge_length _ _ (by decide) (by omega)
        exact getChatSummaryGo_eq_none_of_noClose cs
          (noClose_cs_of_noClose_after ho hnoclose)

/-! ## Claim C9 -/

/-- C9: `getChatSummary` returns the trimmed body of the first closed Summary
tag occurrence — the text between the first opening marker and the first
closing marker after it — and `none` when the document has no closed Summary
tag; with several Summary tags present only the first occurrence is
returned. -/
theorem c9_chat_summary_first_occurrence :
    (∀ s, getChatSummary s = specChatSummary s) ∧
    getChatSummary (("a <dyad-chat-summary> first </dyad-chat-summary> b <dyad-chat-summary>second</dyad-chat-summary>").data) =
      some (("first").data) ∧
    getChatSummary (("no summary here").data) = none ∧
    getChatSummary (("<dyad-chat-summary>unclosed").data) = none :=
  ⟨fun s => getChatSummaryGo_eq_spec s, by decide, by decide, by decide⟩

/-! ## Lemmas: the stream multiplexer and the thinking block -/

theorem replaceAllFuel_id (pat rep : List Char) (hpat : pat.head? = some '<') :
    ∀ fuel t, '<' ∉ t → replaceAllFuel pat rep fuel t = t := by
  intro fuel
  induction fuel with
  | zero => intro t _; rfl
  | succ fuel ih =>
    intro t ht
    cases t with
    | nil => rfl
    | cons c rest =>
      have hc : c ≠ '<' := fun h => ht (h ▸ List.mem_cons_self c rest)
      have hrest : '<' ∉ rest := fun h => ht (List.mem_cons_of_mem c h)
      have hpf : pat.isPrefixOf (c :: rest) = false := by
        cases pat with
        | nil => cases hpat
        | cons a as =>
          have ha : a = '<' := by injection hpat
          rw [List.isPrefixOf_cons₂, Bool.and_eq_false_iff]
          left
          rw [beq_eq_false_iff_ne, ha]
          exact fun h => hc h.symm
      unfold replaceAllFuel
      rw [hpf]
      simp only [Bool.false_eq_true, if_false]
      rw [ih rest hrest]

theorem escapeDyadTags_id (t : List Char) (ht : '<' ∉ t) :
    escapeDyadTags t = t := by
  unfold escapeDyadTags replaceAll
  rw [replaceAllFuel_id _ _ (by decide) _ t ht, replaceAllFuel_id _ _ (by decide) _ t ht]

theorem litAt_false_of_blocked (pat t : List Char) (c0 : Char)
    (hpat : pat.head? = some c0) (hA : ∀ x ∈ t, x ≠ c0) (k : Nat) :
    litAt pat t k = false := by
  by_cases hk : k < t.length
  · have h := litAt_append_left_blocked pat t [] c0 hpat hA hk
    rw [List.append_nil] at h
    exact h
  · refine litAt_of_ge_length _ _ ?_ (by omega)
    intro hnil
    rw [hnil] at hpat
    cases hpat

theorem lastBelow_eq_some_of (p : Nat → Bool) (n i : Nat) (hi : i < n)
    (hp : p i = true) (hafter : ∀ j, i < j → p j = false) :
    lastBelow p n = some i := by
  induction n with
  | zero => omega
  | succ n ih =>
    rw [lastBelow_succ]
    cases hn : p n with
    | true =>
      have : n = i := by
        rcases Nat.lt_or_ge i n with h | h
        · rw [hafter n h] at hn
          cases hn
        · omega
      rw [if_pos rfl, this]
    | false =>
      rw [if_neg (by simp)]
      have hne : i ≠ n := by
        intro h
        rw [h, hn] at hp
        cases hp
      exact ih (by omega)

theorem specUnclosedLit_think_decomp (pre tail : List Char) (htail : '<' ∉ tail) :
    specUnclosedLit thinkOpenLit thinkCloseLit (pre ++ (thinkOpenLit ++ tail)) = true := by
  have hopen : litAt thinkOpenLit (pre ++ (thinkOpenLit ++ tail)) pre.length = true := by
    have h := litAt_append_right thinkOpenLit pre (thinkOpenLit ++ tail) 0
    rw [Nat.add_zero] at h
    rw [h, litAt_zero, List.isPrefixOf_iff_prefix]
    exact List.prefix_append _ _
  have hblocktail : ∀ x ∈ ("think>").data ++ tail, x ≠ '<' := by
    intro x hx
    rcases List.mem_append.mp hx with h | h
    · have hfact : ∀ y ∈ ("think>").data, y ≠ '<' := by decide
      exact hfact x h
    · exact fun hc => htail (hc ▸ h)
  have hafter : ∀ j, pre.length < j →
      litAt thinkOpenLit (pre ++ (thinkOpenLit ++ tail)) j = false := by
    intro j hj
    rw [show j = pre.length + (j - pre.length) from by omega, litAt_append_right]
    rw [show thinkOpenLit ++ tail = '<' :: (("think>").data ++ tail) from rfl]
    rw [show j - pre.length = (j - pre.length - 1) + 1 from by omega, litAt_succ_cons]
    exact litAt_false_of_blocked _ _ '<' (by decide) hblocktail _
  have hlast : lastBelow (litAt thinkOpenLit (pre ++ (thinkOpenLit ++ tail)))
      ((pre ++ (thinkOpenLit ++ tail)).length + 1) = some pre.length := by
    refine lastBelow_eq_some_of _ _ _ ?_ hopen hafter
    rw [List.length_append]
    omega
  have hnoclose : occursIn thinkCloseLit
      ((pre ++ (thinkOpenLit ++ tail)).drop pre.length) = false := by
    rw [List.drop_left]
    rw [Bool.eq_false_iff]
    intro hocc
    rcases (occursIn_iff _ _).mp hocc with ⟨i, hi⟩
    cases i with
    | zero =>
      rw [litAt_zero] at hi
      rw [show thinkOpenLit ++ tail = '<' :: 't' :: (("hink>").data ++ tail) from rfl] at hi
      rw [show thinkCloseLit = '<' :: '/' :: ("think>").data from by decide] at hi
      rw [List.isPrefixOf_cons₂, List.isPrefixOf_cons₂] at hi
      rw [show (('/' : Char) == 't') = false from by decide] at hi
      simp at hi
    | succ k =>
      rw [show thinkOpenLit ++ tail = '<' :: (("think>").data ++ tail) from rfl,
        litAt_succ_cons] at hi
      rw [litAt_false_of_blocked _ _ '<' (by decide) hblocktail k] at hi
      cases hi
  unfold specUnclosedLit
  rw [hlast]
  show (!occursIn thinkCloseLit ((pre ++ (thinkOpenLit ++ tail)).drop pre.length)) = true
  rw [hnoclose]
  rfl

/-- Invariant of the fragment loop: while a thinking block is open, the
accumulated document decomposes as some prefix, the open marker, and a tail
consisting of the escaped reasoning text of the current block — in
particular a tail with no `<` character. -/
def ThinkInv (st : SRState) : Prop :=
  st.inThinkingBlock = true →
    ∃ pre tail, st.fullResponse = pre ++ (thinkOpenLit ++ tail) ∧ '<' ∉ tail

theorem srChunk_reasoning (b : Bool) (part : StreamPart)
    (ht : part.type = "reasoning-delta") (hne : part.text ≠ []) :
    srChunk b part =
      ((if b then [] else thinkOpenLit) ++ escapeDyadTags part.text, true) := by
  unfold srChunk
  rw [ht]
  rw [show (reasoningKinds.contains ("reasoning-delta" : String)) = true from by decide]
  dsimp only
  rw [if_neg (show ¬(("reasoning-delta" : String) = "text-delta" ∧ part.text ≠ []) from
    fun hc => absurd hc.1 (by decide))]
  rw [if_pos ⟨rfl, hne⟩]
  simp only [Bool.not_true, Bool.and_false, Bool.false_eq_true, if_false]
  cases b with
  | true => simp
  | false => simp

theorem srChunk_other (b : Bool) (part : StreamPart)
    (h2 : ¬ (part.type = "reasoning-delta" ∧ part.text ≠ [])) :
    (srChunk b part).2 = false ∨ srChunk b part = ([], b) := by
  unfold srChunk
  dsimp only
  split_ifs <;> simp_all [reasoningKinds]

theorem thinkInv_step (st : SRState) (part : StreamPart)
    (hp : part.type = "reasoning-delta" → '<' ∉ part.text)
    (hst : ThinkInv st) :
    ThinkInv
      (if (srChunk st.inThinkingBlock part).1 = []
       then { st with inThinkingBlock := (srChunk st.inThinkingBlock part).2
                      clock := st.clock + 1 }
       else { fullResponse := st.fullResponse ++ (srChunk st.inThinkingBlock part).1
              inThinkingBlock := (srChunk st.inThinkingBlock part).2
              clock := st.clock + 1 }) := by
  by_cases h2 : part.type = "reasoning-delta" ∧ part.text ≠ []
  · have hesc : escapeDyadTags part.text = part.text := escapeDyadTags_id _ (hp h2.1)
    cases hb : st.inThinkingBlock with
    | true =>
      have hq : srChunk true part = (part.text, true) := by
        rw [srChunk_reasoning true part h2.1 h2.2, hesc]
        simp
      rw [hq, if_neg h2.2]
      intro _
      obtain ⟨pre, tail, hfull, htail⟩ := hst hb
      refine ⟨pre, tail ++ part.text, ?_, ?_⟩
      · show st.fullResponse ++ part.text = _
        rw [hfull]
        simp [List.append_assoc]
      · intro hc
        rcases List.mem_append.mp hc with h | h
        · exact htail h
        · exact hp h2.1 h
    | false =>
      have hq : srChunk false part = (thinkOpenLit ++ part.text, true) := by
        rw [srChunk_reasoning false part h2.1 h2.2, hesc]
        simp
      rw [hq, if_neg (by simp [thinkOpenLit])]
      intro _
      exact ⟨st.fullResponse, part.text, rfl, hp h2.1⟩
  · rcases srChunk_other st.inThinkingBlock part h2 with hq | hq
    · split
      · intro hc
        rw [hq] at hc
        cases hc
      · intro hc
        rw [hq] at hc
        cases hc
    · rw [hq]
      rw [if_pos rfl]
      intro hc
      exact hst hc

theorem streamResponseGo_cons_none (part : StreamPart) (ps : List StreamPart)
    (st : SRState) :
    streamResponseGo (fun _ => false) none (part :: ps) st =
      streamResponseGo (fun _ => false) none ps
        (if (srChunk st.inThinkingBlock part).1 = []
         then { st with inThinkingBlock := (srChunk st.inThinkingBlock part).2
                        clock := st.clock + 1 }
         else { fullResponse := st.fullResponse ++ (srChunk st.inThinkingBlock part).1
                inThinkingBlock := (srChunk st.inThinkingBlock part).2
                clock := st.clock + 1 }) := by
  rw [streamResponseGo]
  simp only [Bool.false_eq_true, if_false]
  split <;> rfl

theorem streamResponseGo_append_none (l1 l2 : List StreamPart) :
    ∀ st, streamResponseGo (fun _ => false) none (l1 ++ l2) st =
      streamResponseGo (fun _ => false) none l2
        (streamResponseGo (fun _ => false) none l1 st) := by
  induction l1 with
  | nil => intro st; rfl
  | cons part ps ih =>
    intro st
    rw [List.cons_append, streamResponseGo_cons_none, streamResponseGo_cons_none, ih]

theorem streamResponseGo_thinkInv (parts : List StreamPart)
    (h : ∀ p ∈ parts, p.type = "reasoning-delta" → '<' ∉ p.text) :
    ∀ st, ThinkInv st →
      ThinkInv (streamResponseGo (fun _ => false) none parts st) := by
  induction parts with
  | nil => intro st hst; exact hst
  | cons part ps ih =>
    intro st hst
    rw [streamResponseGo_cons_none]
    refine ih (fun p hp => h p (List.mem_cons_of_mem part hp)) _ ?_
    exact thinkInv_step st part (h part (List.mem_cons_self part ps)) hst

/-! ## Claim C10 -/

/-- C10: for every fragment stream whose final fragment is a reasoning
fragment with non-empty text (and whose reasoning texts contain no literal
`<`, so that the escaped reasoning text cannot itself form a marker), the
multiplexed document ends inside a thinking block: the last `<think>` marker
has no `</think>` at or after it — the close marker is only emitted when a
later non-reasoning fragment arrives, never at end of stream. -/
theorem c10_trailing_reasoning_leaves_think_unclosed
    (ps : List StreamPart) (pLast : StreamPart)
    (hreas : ∀ p ∈ ps ++ [pLast], p.type = "reasoning-delta" → '<' ∉ p.text)
    (hlast : pLast.type = "reasoning-delta") (hne : pLast.text ≠ []) :
    specUnclosedLit thinkOpenLit thinkCloseLit
      (streamResponseGo (fun _ => false) none (ps ++ [pLast]) {}).fullResponse
      = true ∧
    (streamResponseGo (fun _ => false) none (ps ++ [pLast]) {}).inThinkingBlock
      = true := by
  rw [streamResponseGo_append_none]
  have hinv1 : ThinkInv (streamResponseGo (fun _ => false) none ps {}) := by
    refine streamResponseGo_thinkInv ps ?_ {} ?_
    · intro p hp
      exact hreas p (List.mem_append.mpr (Or.inl hp))
    · intro h
      exact absurd h (by decide)
  rw [streamResponseGo_cons_none]
  have hplast : '<' ∉ pLast.text :=
    hreas pLast (List.mem_append.mpr (Or.inr (List.mem_singleton.mpr rfl))) hlast
  have hstep := thinkInv_step (streamResponseGo (fun _ => false) none ps {}) pLast
    (fun _ => hplast) hinv1
  have hq2 : (srChunk (streamResponseGo (fun _ => false) none ps {}).inThinkingBlock
      pLast).2 = true := by
    rw [srChunk_reasoning _ pLast hlast hne]
  have hin : (if (srChunk (streamResponseGo (fun _ => false) none ps {}).inThinkingBlock
        pLast).1 = []
      then { streamResponseGo (fun _ => false) none ps {} with
             inThinkingBlock := (srChunk (streamResponseGo (fun _ => false) none ps {}).inThinkingBlock pLast).2
             clock := (streamResponseGo (fun _ => false) none ps {}).clock + 1 }
      else { fullResponse := (streamResponseGo (fun _ => false) none ps {}).fullResponse ++
               (srChunk (streamResponseGo (fun _ => false) none ps {}).inThinkingBlock pLast).1
             inThinkingBlock := (srChunk (streamResponseGo (fun _ => false) none ps {}).inThinkingBlock pLast).2
             clock := (streamResponseGo (fun _ => false) none ps {}).clock + 1 }).inThinkingBlock = true := by
    split <;> exact hq2
  obtain ⟨pre, tail, hfull, htail⟩ := hstep hin
  have hnil : ∀ st, streamResponseGo (fun _ => false) none ([] : List StreamPart) st = st :=
    fun st => rfl
  constructor
  · rw [hnil, hfull]
    exact specUnclosedLit_think_decomp pre tail htail
  · rw [hnil]
    exact hin

/-- Witness for C10: the theorem applied to the one-fragment stream
consisting of the reasoning fragment `"abc"`. -/
theorem c10_trailing_reasoning_witness :
    (∀ p ∈ ([] : List StreamPart) ++ [(⟨"reasoning-delta", ("abc").data⟩ : StreamPart)],
        p.type = "reasoning-delta" → '<' ∉ p.text) ∧
    (⟨"reasoning-delta", ("abc").data⟩ : StreamPart).type = "reasoning-delta" ∧
    (⟨"reasoning-delta", ("abc").data⟩ : StreamPart).text ≠ [] ∧
    specUnclosedLit thinkOpenLit thinkCloseLit
      (streamResponseGo (fun _ => false) none
        (([] : List StreamPart) ++ [⟨"reasoning-delta", ("abc").data⟩]) {}).fullResponse
      = true :=
  ⟨by decide, by decide, by decide,
   (c10_trailing_reasoning_leaves_think_unclosed [] ⟨"reasoning-delta", ("abc").data⟩
     (by decide) (by decide) (by decide)).1⟩

/-- C10 counterexample: the original claim fails without side conditions on
the reasoning texts.  `escapeDyadTags` rewrites only `<dyad` and `</dyad`, so
a stream ending in a reasoning fragment whose text is the literal `</think>`
accumulates the document `<think></think>`, in which the reasoning open
marker has a matching close marker; and a stream ending in a reasoning
fragment with empty text is skipped by the multiplexer and emits no marker
at all, so its document contains no open marker. -/
theorem c10_reasoning_close_counterexample :
    (streamResponseGo (fun _ => false) none
        [⟨"reasoning-delta", ("</think>").data⟩] {}).fullResponse
      = ("<think></think>").data ∧
    specUnclosedLit thinkOpenLit thinkCloseLit
      (streamResponseGo (fun _ => false) none
        [⟨"reasoning-delta", ("</think>").data⟩] {}).fullResponse = false ∧
    (streamResponseGo (fun _ => false) none
        [(⟨"reasoning-delta", []⟩ : StreamPart)] {}).fullResponse = [] ∧
    specUnclosedLit thinkOpenLit thinkCloseLit
      (streamResponseGo (fun _ => false) none
        [(⟨"reasoning-delta", []⟩ : StreamPart)] {}).fullResponse = false :=
  ⟨by decide, by decide, by decide, by decide⟩

/-! ## Lemmas: truncation detection -/

theorem dropWhile_head_false (p : Char → Bool) :
    ∀ (l l2 : List Char) (a : Char), l.dropWhile p = a :: l2 → p a = false := by
  intro l
  induction l with
  | nil => intro l2 a h; cases h
  | cons c cs ih =>
    intro l2 a h
    rw [List.dropWhile_cons] at h
    split at h
    · exact ih l2 a h
    · next hpc =>
      cases h
      exact Bool.not_eq_true _ |>.mp hpc

theorem writeOpenAt_zero (s : List Char) :
    writeOpenAt s 0 = (writeOpenMatchRest s).isSome := by
  unfold writeOpenAt
  rw [List.drop_zero]

theorem writeOpenAt_succ_cons (c : Char) (s : List Char) (i : Nat) :
    writeOpenAt (c :: s) (i + 1) = writeOpenAt s i := by
  unfold writeOpenAt
  rw [List.drop_succ_cons]

theorem writeOpenAt_drop (s : List Char) (k i : Nat) :
    writeOpenAt (s.drop k) i = writeOpenAt s (k + i) := by
  unfold writeOpenAt
  rw [List.drop_drop, Nat.add_comm]

theorem writeOpenMatchRest_decomp (t r : List Char)
    (h : writeOpenMatchRest t = some r) :
    ∃ attrs, t = (writeOpenLit ++ attrs) ++ '>' :: r ∧ '>' ∉ attrs := by
  unfold writeOpenMatchRest at h
  split at h
  · next hpf =>
    cases hd : (t.drop 11).dropWhile (fun c => c ≠ '>') with
    | nil => rw [hd] at h; cases h
    | cons g rest =>
      rw [hd] at h
      have hr : rest = r := by injection h
      have hg : g = '>' := by
        have := dropWhile_head_false (fun c => c ≠ '>') (t.drop 11) rest g hd
        simpa using this
      refine ⟨(t.drop 11).takeWhile (fun c => c ≠ '>'), ?_, ?_⟩
      · have h1 : t = writeOpenLit ++ t.drop 11 := by
          have h2 := isPrefixOf_eq_append _ _ hpf
          rw [show writeOpenLit.length = 11 from by decide] at h2
          exact h2
        have hd2 : (t.drop 11).dropWhile (fun c => c ≠ '>') = '>' :: r := by
          rw [hd, hg, hr]
        have h3 : t.drop 11 =
            (t.drop 11).takeWhile (fun c => c ≠ '>') ++ '>' :: r := by
          rw [← hd2]
          exact (List.takeWhile_append_dropWhile _ _).symm
        rw [List.append_assoc]
        rw [← h3]
        exact h1
      · intro hmem
        have := List.mem_takeWhile_imp hmem
        simp at this
  · cases h

theorem writeOpenMatchRest_length (t r : List Char)
    (h : writeOpenMatchRest t = some r) : r.length < t.length := by
  obtain ⟨attrs, hdec, _⟩ := writeOpenMatchRest_decomp t r h
  rw [hdec]
  simp [writeOpenLit]
  omega

theorem writeOpenAt_append_right (A B : List Char) (i : Nat) :
    writeOpenAt (A ++ B) (A.length + i) = writeOpenAt B i := by
  unfold writeOpenAt
  rw [List.drop_append]

theorem head?_drop_of_decomp (s X rem : List Char) (h : s = X ++ rem)
    {m : Nat} (hm : m < X.length) :
    ∃ a, (s.drop m).head? = some a ∧ a ∈ X ∧ (X.drop m).head? = some a := by
  have h1 : s.drop m = X.drop m ++ rem := by
    rw [h, List.drop_append_of_le_length (Nat.le_of_lt hm)]
  have hne : X.drop m ≠ [] := by
    intro hnil
    have := congrArg List.length hnil
    simp at this
    omega
  obtain ⟨a, ha⟩ : ∃ a, (X.drop m).head? = some a := by
    cases hd : (X.drop m).head? with
    | none => exact absurd (List.head?_eq_none_iff.mp hd) hne
    | some a => exact ⟨a, rfl⟩
  refine ⟨a, ?_, ?_, ha⟩
  · rw [h1, List.head?_append, ha]
    rfl
  · exact List.drop_subset m X (List.mem_of_mem_head? (Option.mem_def.mpr ha))

theorem lastWriteOpenSuffix_cons_none (fuel : Nat) (c : Char) (cs : List Char)
    (hm : writeOpenMatchRest (c :: cs) = none) :
    lastWriteOpenSuffix (fuel + 1) (c :: cs) = lastWriteOpenSuffix fuel cs := by
  simp only [lastWriteOpenSuffix, hm]

theorem lastWriteOpenSuffix_cons_some (fuel : Nat) (c : Char) (cs rest : List Char)
    (hm : writeOpenMatchRest (c :: cs) = some rest) :
    lastWriteOpenSuffix (fuel + 1) (c :: cs) =
      (match lastWriteOpenSuffix fuel rest with
       | some suf => some suf
       | none => some (c :: cs)) := by
  simp only [lastWriteOpenSuffix, hm]

theorem lastWriteOpenSuffix_none_iff :
    ∀ (fuel : Nat) (t : List Char), t.length ≤ fuel →
      (lastWriteOpenSuffix fuel t = none ↔ ∀ i, writeOpenAt t i = false) := by
  intro fuel
  induction fuel with
  | zero =>
    intro t hf
    have ht : t = [] := List.length_eq_zero.mp (Nat.le_zero.mp hf)
    subst ht
    constructor
    · intro _ i
      show (writeOpenMatchRest (List.drop i [])).isSome = false
      rw [List.drop_nil]
      decide
    · intro _
      rfl
  | succ fuel ih =>
    intro t hf
    cases t with
    | nil =>
      constructor
      · intro _ i
        show (writeOpenMatchRest (List.drop i [])).isSome = false
        rw [List.drop_nil]
        decide
      · intro _
        rfl
    | cons c cs =>
      cases hm : writeOpenMatchRest (c :: cs) with
      | some rest =>
        constructor
        · intro h
          exfalso
          rw [lastWriteOpenSuffix_cons_some fuel c cs rest hm] at h
          cases hin : lastWriteOpenSuffix fuel rest with
          | some suf2 => rw [hin] at h; cases h
          | none => rw [hin] at h; cases h
        · intro hall
          exfalso
          have h0 := hall 0
          rw [writeOpenAt_zero, hm] at h0
          cases h0
      | none =>
        have hcs : cs.length ≤ fuel := by
          simp only [List.length_cons] at hf
          omega
        rw [lastWriteOpenSuffix_cons_none fuel c cs hm, ih cs hcs]
        constructor
        · intro h i
          cases i with
          | zero => rw [writeOpenAt_zero, hm]; rfl
          | succ j => rw [writeOpenAt_succ_cons]; exact h j
        · intro h j
          have h2 := h (j + 1)
          rw [writeOpenAt_succ_cons] at h2
          exact h2

theorem lastWriteOpenSuffix_some_spec :
    ∀ (fuel : Nat) (t suf : List Char), t.length ≤ fuel →
      lastWriteOpenSuffix fuel t = some suf →
      ∃ i r, suf = t.drop i ∧ writeOpenAt t i = true ∧
        writeOpenMatchRest suf = some r ∧ ∀ j, writeOpenAt r j = false := by
  intro fuel
  induction fuel with
  | zero =>
    intro t suf hf h
    simp [lastWriteOpenSuffix] at h
  | succ fuel ih =>
    intro t suf hf h
    cases t with
    | nil => simp [lastWriteOpenSuffix] at h
    | cons c cs =>
      cases hm : writeOpenMatchRest (c :: cs) with
      | none =>
        rw [lastWriteOpenSuffix_cons_none fuel c cs hm] at h
        have hcs : cs.length ≤ fuel := by
          simp only [List.length_cons] at hf
          omega
        obtain ⟨i, r, h1, h2, h3, h4⟩ := ih cs suf hcs h
        refine ⟨i + 1, r, ?_, ?_, h3, h4⟩
        · rw [List.drop_succ_cons]
          exact h1
        · rw [writeOpenAt_succ_cons]
          exact h2
      | some rest =>
        rw [lastWriteOpenSuffix_cons_some fuel c cs rest hm] at h
        have hrl : rest.length ≤ fuel := by
          have hlen := writeOpenMatchRest_length _ _ hm
          simp only [List.length_cons] at hlen hf
          omega
        cases hin : lastWriteOpenSuffix fuel rest with
        | some suf2 =>
          rw [hin] at h
          have hsuf : suf2 = suf := by injection h
          subst hsuf
          obtain ⟨i2, r2, h1, h2, h3, h4⟩ := ih rest suf2 hrl hin
          obtain ⟨attrs, hdec, hattrs⟩ := writeOpenMatchRest_decomp _ _ hm
          have hdec2 : c :: cs = ((writeOpenLit ++ attrs) ++ ['>']) ++ rest := by
            rw [hdec]
            simp
          refine ⟨((writeOpenLit ++ attrs) ++ ['>']).length + i2, r2, ?_, ?_, h3, h4⟩
          · rw [hdec2, List.drop_append]
            exact h1
          · rw [hdec2, writeOpenAt_append_right]
            exact h2
        | none =>
          rw [hin] at h
          have hsuf : c :: cs = suf := by injection h
          refine ⟨0, rest, ?_, ?_, ?_, ?_⟩
          · rw [List.drop_zero]
            exact hsuf.symm
          · rw [writeOpenAt_zero, hm]
            rfl
          · rw [← hsuf]
            exact hm
          · intro j
            exact ((lastWriteOpenSuffix_none_iff fuel rest hrl).mp hin) j

theorem lastBelow_spec (p : Nat → Bool) (n : Nat) :
    (lastBelow p n = none ∧ ∀ i < n, p i = false) ∨
    (∃ N, lastBelow p n = some N ∧ N < n ∧ p N = true ∧
      ∀ j, N < j → j < n → p j = false) := by
  induction n with
  | zero => exact Or.inl ⟨rfl, by omega⟩
  | succ n ih =>
    rw [lastBelow_succ]
    cases hn : p n with
    | true =>
      refine Or.inr ⟨n, by rw [if_pos rfl], by omega, hn,
        fun j h1 h2 => (by omega : False).elim⟩
    | false =>
      rw [if_neg (by simp)]
      rcases ih with ⟨h1, h2⟩ | ⟨N, h1, h2, h3, h4⟩
      · refine Or.inl ⟨h1, ?_⟩
        intro i hi
        rcases Nat.lt_or_ge i n with h | h
        · exact h2 i h
        · rw [show i = n from by omega]
          exact hn
      · refine Or.inr ⟨N, h1, by omega, h3, ?_⟩
        intro j hj1 hj2
        rcases Nat.lt_or_ge j n with h | h
        · exact h4 j hj1 h
        · rw [show j = n from by omega]
          exact hn

theorem writeOpenAt_imp_isPrefixOf (s : List Char) (i : Nat)
    (h : writeOpenAt s i = true) :
    writeOpenLit.isPrefixOf (s.drop i) = true := by
  unfold writeOpenAt writeOpenMatchRest at h
  split at h
  · next hc => exact hc
  · simp at h

theorem noClose_in_region (suf r attrs : List Char)
    (hdec : suf = (writeOpenLit ++ attrs) ++ '>' :: r) (hattrs : '>' ∉ attrs)
    (n0 : Nat) (hopen : writeOpenAt suf n0 = true)
    (hlt : n0 ≤ (writeOpenLit ++ attrs).length) :
    ∀ k, k < n0 → litAt writeCloseLit suf k = false := by
  intro k hk
  have hAno : '>' ∉ writeOpenLit ++ attrs := by
    intro hm
    rcases List.mem_append.mp hm with h | h
    · exact absurd h (by decide)
    · exact hattrs h
  rw [Bool.eq_false_iff]
  intro hlit
  unfold litAt at hlit
  have hCL : suf.drop k = writeCloseLit ++ (suf.drop k).drop writeCloseLit.length :=
    isPrefixOf_eq_append _ _ hlit
  have hheadOpen : (suf.drop n0).head? = some '<' :=
    isPrefixOf_head _ _ (writeOpenAt_imp_isPrefixOf suf n0 hopen) (by decide)
  rcases Nat.lt_trichotomy (12 + k) (writeOpenLit ++ attrs).length with hcase | hcase | hcase
  · obtain ⟨a, ha1, _, ha3⟩ := head?_drop_of_decomp (suf.drop k) writeCloseLit _ hCL
      (show (12 : Nat) < writeCloseLit.length from by decide)
    rw [List.drop_drop, show k + 12 = 12 + k from by omega] at ha1
    obtain ⟨b, hb1, hb2, _⟩ := head?_drop_of_decomp suf (writeOpenLit ++ attrs)
      ('>' :: r) hdec (show 12 + k < (writeOpenLit ++ attrs).length from hcase)
    rw [hb1] at ha1
    have hab : b = a := by injection ha1
    have ha4 : some '>' = some a := by
      rw [← ha3]
      decide
    have ha5 : ('>' : Char) = a := by injection ha4
    rw [hab, ← ha5] at hb2
    exact hAno hb2
  · obtain ⟨a, ha1, _, ha3⟩ := head?_drop_of_decomp (suf.drop k) writeCloseLit _ hCL
      (show n0 - k < writeCloseLit.length from by
        rw [show writeCloseLit.length = 13 from by decide]
        omega)
    rw [List.drop_drop, show k + (n0 - k) = n0 from by omega] at ha1
    rw [hheadOpen] at ha1
    have ha4 : ('<' : Char) = a := by injection ha1
    have hmem : a ∈ writeCloseLit.drop (n0 - k) :=
      List.mem_of_mem_head? (Option.mem_def.mpr ha3)
    have hsub : writeCloseLit.drop (n0 - k) ⊆ writeCloseLit.drop 1 := by
      rw [show writeCloseLit.drop (n0 - k) =
        (writeCloseLit.drop 1).drop (n0 - k - 1) from by
          rw [List.drop_drop]
          congr 1
          omega]
      exact List.drop_subset _ _
    have hfact : ∀ y ∈ writeCloseLit.drop 1, y ≠ '<' := by decide
    exact hfact a (hsub hmem) ha4.symm
  · obtain ⟨a, ha1, _, ha3⟩ := head?_drop_of_decomp (suf.drop k) writeCloseLit _ hCL
      (show (writeOpenLit ++ attrs).length - k < writeCloseLit.length from by
        rw [show writeCloseLit.length = 13 from by decide]
        omega)
    rw [List.drop_drop,
      show k + ((writeOpenLit ++ attrs).length - k) = (writeOpenLit ++ attrs).length
        from by omega] at ha1
    have hdropA : suf.drop (writeOpenLit ++ attrs).length = '>' :: r := by
      rw [hdec]
      exact List.drop_left _ _
    rw [hdropA] at ha1
    have ha4 : ('>' : Char) = a := by injection ha1
    obtain ⟨b, hb1, hb2, _⟩ := head?_drop_of_decomp writeCloseLit
      (writeCloseLit.take 12) ['>'] (by decide)
      (show (writeOpenLit ++ attrs).length - k < (writeCloseLit.take 12).length
        from by
          rw [show (writeCloseLit.take 12).length = 12 from by decide]
          omega)
    rw [ha3] at hb1
    have hab : a = b := by injection hb1
    have hfact : ∀ y ∈ writeCloseLit.take 12, y ≠ '>' := by decide
    exact hfact b hb2 (by rw [← hab, ← ha4])

theorem occursIn_drop_eq_of_noEarly (pat t : List Char) (i N : Nat) (hiN : i ≤ N)
    (hnone : ∀ k, i ≤ k → k < N → litAt pat t k = false) :
    occursIn pat (t.drop i) = occursIn pat (t.drop N) := by
  have h1 : occursIn pat (t.drop N) = true → occursIn pat (t.drop i) = true := by
    intro h
    obtain ⟨j, hj⟩ := (occursIn_iff _ _).mp h
    rw [litAt_drop] at hj
    refine (occursIn_iff _ _).mpr ⟨N + j - i, ?_⟩
    rw [litAt_drop, show i + (N + j - i) = N + j from by omega]
    exact hj
  have h2 : occursIn pat (t.drop i) = true → occursIn pat (t.drop N) = true := by
    intro h
    obtain ⟨j, hj⟩ := (occursIn_iff _ _).mp h
    rw [litAt_drop] at hj
    rcases Nat.lt_or_ge (i + j) N with hc | hc
    · rw [hnone (i + j) (by omega) hc] at hj
      cases hj
    · refine (occursIn_iff _ _).mpr ⟨i + j - N, ?_⟩
      rw [litAt_drop, show N + (i + j - N) = i + j from by omega]
      exact hj
  cases hI : occursIn pat (t.drop i) with
  | true => exact (h2 hI).symm
  | false =>
    cases hN : occursIn pat (t.drop N) with
    | true =>
      rw [h1 hN] at hI
      cases hI
    | false => rfl

/-- C4: for every document, `hasUnclosedWriteTag` returns `false` when no
Write opening marker occurs (the `none` branch of `specTruncated`), and
otherwise returns `true` iff no Write closing marker occurs at or after the
offset of the last Write opening marker: it coincides with the spec-side
`specTruncated` on all inputs.  Consequently a document whose last Write tag
is fully closed is judged not truncated even with trailing prose, a document
with an opened-but-unclosed Write tag is truncated, and a document with no
marker at all is not. -/
theorem c4_truncation_detection :
    (∀ s, hasUnclosedWriteTag s = specTruncated s) ∧
    hasUnclosedWriteTag
      (("Intro <dyad-write path=\"a.txt\">hello</dyad-write> trailing prose").data)
      = false ∧
    hasUnclosedWriteTag (("Intro <dyad-write path=\"a.txt\">hello").data) = true ∧
    hasUnclosedWriteTag (("plain prose with no markers").data) = false := by
  refine ⟨?_, by decide, by decide, by decide⟩
  intro s
  unfold hasUnclosedWriteTag specTruncated
  cases hscan : lastWriteOpenSuffix s.length s with
  | none =>
    have hno := (lastWriteOpenSuffix_none_iff s.length s (Nat.le_refl _)).mp hscan
    rcases lastBelow_spec (writeOpenAt s) (s.length + 1) with ⟨h1, _⟩ | ⟨N, _, _, h3, _⟩
    · rw [h1]
    · exfalso
      rw [hno N] at h3
      cases h3
  | some suf =>
    obtain ⟨i, r, hsuf, hopenI, hmr, hnor⟩ :=
      lastWriteOpenSuffix_some_spec s.length s suf (Nat.le_refl _) hscan
    have hi_le : i ≤ s.length := by
      by_contra hgt
      have hsd : s.drop i = [] := List.drop_eq_nil_of_le (by omega)
      rw [hsd] at hsuf
      rw [hsuf] at hmr
      rw [show writeOpenMatchRest ([] : List Char) = none from by decide] at hmr
      cases hmr
    rcases lastBelow_spec (writeOpenAt s) (s.length + 1) with ⟨_, h2⟩ | ⟨N, h1, _, h3, h4⟩
    · exfalso
      have hfalse := h2 i (by omega)
      rw [hfalse] at hopenI
      cases hopenI
    · rw [h1]
      show (! occursIn writeCloseLit suf) = (! occursIn writeCloseLit (s.drop N))
      have hiN : i ≤ N := by
        by_contra hgt
        have hfalse := h4 i (by omega) (by omega)
        rw [hfalse] at hopenI
        cases hopenI
      obtain ⟨attrs, hdecomp, hattrs⟩ := writeOpenMatchRest_decomp _ _ hmr
      have hbeyond : ∀ j,
          writeOpenAt suf ((writeOpenLit ++ attrs).length + 1 + j) = false := by
        intro j
        have hdec2 : suf = ((writeOpenLit ++ attrs) ++ ['>']) ++ r := by
          rw [hdecomp]
          simp
        rw [hdec2]
        rw [show (writeOpenLit ++ attrs).length + 1 + j =
          ((writeOpenLit ++ attrs) ++ ['>']).length + j from by
            simp
            omega]
        rw [writeOpenAt_append_right]
        exact hnor j
      have hNlt : N ≤ i + (writeOpenLit ++ attrs).length := by
        by_contra hgt
        have hfa := hbeyond (N - (i + (writeOpenLit ++ attrs).length + 1))
        rw [show (writeOpenLit ++ attrs).length + 1 +
          (N - (i + (writeOpenLit ++ attrs).length + 1)) = N - i from by omega] at hfa
        rw [hsuf, writeOpenAt_drop, show i + (N - i) = N from by omega] at hfa
        rw [hfa] at h3
        cases h3
      rcases Nat.eq_or_lt_of_le hiN with heq | hlt2
      · rw [hsuf, heq]
      · have hopenN : writeOpenAt suf (N - i) = true := by
          rw [hsuf, writeOpenAt_drop, show i + (N - i) = N from by omega]
          exact h3
        have hreg := noClose_in_region suf r attrs hdecomp hattrs (N - i)
          hopenN (by omega)
        have hnone : ∀ k, i ≤ k → k < N → litAt writeCloseLit s k = false := by
          intro k hk1 hk2
          have h5 := hreg (k - i) (by omega)
          rw [hsuf, litAt_drop, show i + (k - i) = k from by omega] at h5
          exact h5
        have hocc := occursIn_drop_eq_of_noEarly writeCloseLit s i N hiN hnone
        rw [hsuf, hocc]

end Dyad
